import Mathlib

/-!
Verification of the SceneSense AI utility core (src/app.py).

The Python helpers are shallowly embedded over `List Char` (Python `str`):

* `scene_splitter`   — app.py lines 209-230
* `extract_json_loose` — app.py lines 179-206 (with `json.loads` embedded as a
  strict JSON parser producing Python values)
* `normalize_hex`    — app.py lines 165-176
* `clamp_intensity`, `clamp_confidence` — app.py lines 149-162
* the batch-mode result loop of `main` — app.py lines 792-822

Python `float` is modelled by `ℚ` (the clamp and parse operations used here are
exact order operations, no rounding is involved; non-finite literals such as
NaN and Infinity are outside the model).  Python `None` is `PyVal.vnone`; a
Python function that either returns a value or raises is modelled with
`Option`/`Except`, and `extract_json_loose`, which swallows all exceptions and
returns `None` on failure, is a total function returning `PyVal.vnone` on
failure, exactly as the Python caller observes it.
-/

namespace SceneSense

/-- The backtick character (code 96). -/
def btick : Char := Char.ofNat 96

/-- The opening brace character (code 123). -/
def lbrace : Char := Char.ofNat 123

/-- The closing brace character (code 125). -/
def rbrace : Char := Char.ofNat 125

/-- Whitespace stripped by Python `str.strip()` with no argument
(the code points for which `str.isspace()` holds). -/
def isPyWs (c : Char) : Bool :=
  c.toNat ∈ [9, 10, 11, 12, 13, 28, 29, 30, 31, 32, 0x85, 0xa0, 0x1680,
    0x2000, 0x2001, 0x2002, 0x2003, 0x2004, 0x2005, 0x2006, 0x2007, 0x2008,
    0x2009, 0x200a, 0x2028, 0x2029, 0x202f, 0x205f, 0x3000]

/-- The character set of Python `str.strip("` \n\t")` used by
`extract_json_loose`: backtick, space, newline, tab. -/
def isFenceTrim (c : Char) : Bool :=
  c = btick || c = ' ' || c = '\n' || c = '\t'

/-- Python `s.strip(...)` for a character class `p`: drop matching characters
from both ends. -/
def stripOn (p : Char → Bool) (s : List Char) : List Char :=
  (((s.dropWhile p).reverse).dropWhile p).reverse

/-- Python `s.strip()` (no argument). -/
def stripWS (s : List Char) : List Char := stripOn isPyWs s

/-- Python `s.strip("` \n\t")`. -/
def stripFence (s : List Char) : List Char := stripOn isFenceTrim s

/-- Python `s.replace("\r\n", "\n")`: left-to-right non-overlapping
replacement of CRLF pairs by a single newline. -/
def replCRLF : List Char → List Char
  | c :: c2 :: rest2 =>
    if c = '\r' ∧ c2 = '\n' then '\n' :: replCRLF rest2
    else c :: replCRLF (c2 :: rest2)
  | [c] => [c]
  | [] => []

/-- Line-ending normalization of `scene_splitter`:
`.replace("\r\n", "\n").replace("\r", "\n")`. -/
def normalizeNewlines (s : List Char) : List Char :=
  (replCRLF s).map (fun c => if c = '\r' then '\n' else c)

/-- Boolean prefix test on character lists. -/
def startsL : List Char → List Char → Bool
  | [], _ => true
  | _ :: _, [] => false
  | p :: ps, c :: cs => p = c && startsL ps cs

/-- The screenplay heading marker `INT.`. -/
def mINT : List Char := ['I', 'N', 'T', '.']

/-- The screenplay heading marker `EXT.`. -/
def mEXT : List Char := ['E', 'X', 'T', '.']

/-- The screenplay heading marker `INT/EXT.`. -/
def mINTEXT : List Char := ['I', 'N', 'T', '/', 'E', 'X', 'T', '.']

/-- The screenplay heading marker `I/E.`. -/
def mIE : List Char := ['I', '/', 'E', '.']

/-- Whether the text at the current position begins with one of the heading
markers of the pattern `(?=^(?:INT\.|EXT\.|INT/EXT\.|I/E\.).*$)`; the trailing
`.*$` of the lookahead always succeeds, so only the marker alternation
matters. -/
def headingHere (s : List Char) : Bool :=
  startsL mINT s || startsL mEXT s || startsL mINTEXT s || startsL mIE s

/-- One pass of `re.split` with the multiline zero-width heading lookahead:
walk the text, and start a new part immediately before every heading that
sits at a line start.  `atStart` records whether the current position is a
line start (position 0, or just after a newline); `acc` is the current part,
reversed. -/
def splitGo : Bool → List Char → List Char → List (List Char)
  | _, [], acc => [acc.reverse]
  | atStart, c :: rest, acc =>
    if atStart ∧ headingHere (c :: rest) then
      acc.reverse :: splitGo (c = '\n') rest [c]
    else
      splitGo (c = '\n') rest (c :: acc)

/-- `re.split(r"(?=^(?:INT\.|EXT\.|INT/EXT\.|I/E\.).*$)", t, flags=re.MULTILINE)`. -/
def splitSc (t : List Char) : List (List Char) := splitGo true t []

/-- Count of heading lines (positions where a part boundary is inserted),
with the same line-start tracking as `splitGo`. -/
def countHeads : Bool → List Char → Nat
  | _, [] => 0
  | atStart, c :: rest =>
    (if atStart ∧ headingHere (c :: rest) then 1 else 0) + countHeads (c = '\n') rest

/-- No heading boundary fires while scanning the text with line-start flag
`b`: the same test as `splitGo`, position by position. -/
def noHeadB : Bool → List Char → Bool
  | _, [] => true
  | b, c :: rest => !(b && headingHere (c :: rest)) && noHeadB (c = '\n') rest

/-- The line-start flag after scanning `u`, starting from flag `b`. -/
def endsLS (b : Bool) (u : List Char) : Bool :=
  match u.getLast? with
  | some c => c = '\n'
  | none => b

/-- `scene_splitter` (app.py lines 209-230): guard on trimmed length `< 30`,
normalize line endings, split at headings, keep trimmed parts of length at
least 60, and fall back to the whole trimmed text when nothing survives. -/
def scene_splitter (s : List Char) : List (List Char) :=
  if s = [] ∨ (stripWS s).length < 30 then []
  else
    let t := normalizeNewlines s
    let scenes := ((splitSc t).map stripWS).filter (fun p => 60 ≤ p.length)
    if scenes = [] then [stripWS t] else scenes

/-- `normalize_hex` (app.py lines 165-176). -/
def normalize_hex (h : List Char) : List Char :=
  if h = [] then ['#', '1', '1', '1', '1', '1', '1']
  else
    let h1 := stripWS h
    let h2 := if h1.head? = some '#' then h1 else '#' :: h1
    let h3 := if h2.length = 4 then '#' :: (h2.tail.flatMap (fun c => [c, c])) else h2
    if h3.length ≠ 7 then ['#', '1', '1', '1', '1', '1', '1'] else h3

/-- Python values as produced by `json.loads` and consumed by the helpers.
`vnone` is Python `None` (also the result of parsing `null`); floats are
modelled by `ℚ` (decimal literals are taken exactly; IEEE rounding and the
non-finite literals NaN/Infinity are outside the model). -/
inductive PyVal where
  | vnone : PyVal
  | vbool : Bool → PyVal
  | vint : Int → PyVal
  | vfloat : ℚ → PyVal
  | vstr : List Char → PyVal
  | vlist : List PyVal → PyVal
  | vdict : List (List Char × PyVal) → PyVal

/-- Whether the text contains a run of three backticks (a code-fence marker
matched by `re.sub(r"```(json)?", ...)`). -/
def hasFence : List Char → Bool
  | c1 :: c2 :: c3 :: rest =>
    (c1 = btick && c2 = btick && c3 = btick) || hasFence (c2 :: c3 :: rest)
  | _ => false

/-- Case-insensitive test for the four characters `json` (the optional tag of
the fence regex, compiled with `re.IGNORECASE`). -/
def isTag4 (a b c d : Char) : Bool :=
  (a = 'j' || a = 'J') && (b = 's' || b = 'S') && (c = 'o' || c = 'O') && (d = 'n' || d = 'N')

/-- `re.sub(r"```(json)?", "", text, flags=re.IGNORECASE)`: scan left to
right, deleting every triple backtick together with a directly following
`json` tag (any case); scanning resumes after each deleted match. -/
def removeFences : List Char → List Char
  | c1 :: c2 :: c3 :: a :: b :: c :: d :: rest =>
    if c1 = btick ∧ c2 = btick ∧ c3 = btick then
      if isTag4 a b c d then removeFences rest
      else removeFences (a :: b :: c :: d :: rest)
    else c1 :: removeFences (c2 :: c3 :: a :: b :: c :: d :: rest)
  | c1 :: c2 :: c3 :: rest =>
    if c1 = btick ∧ c2 = btick ∧ c3 = btick then removeFences rest
    else c1 :: removeFences (c2 :: c3 :: rest)
  | s => s

/-- Whether the text, after its leading whitespace, starts with a closing
brace or bracket: the lookahead part `\s*[}\]]` of the trailing-comma repair
regex (`\s` on a `str` pattern matches unicode whitespace). -/
def closeAfterWs (l : List Char) : Bool :=
  match l.dropWhile isPyWs with
  | c :: _ => c = rbrace || c = ']'
  | [] => false

/-- `re.sub(r",(\s*[}\]])", r"\1", blob)`: delete every comma that is
followed, across optional whitespace, by a closing brace or bracket.  The
matched whitespace-plus-closer is kept by the replacement and contains no
comma, so the left-to-right non-overlapping scan of `re.sub` deletes exactly
the commas whose own lookahead matches. -/
def repairCommas : List Char → List Char
  | [] => []
  | c :: rest =>
    if c = ',' ∧ closeAfterWs rest then repairCommas rest
    else c :: repairCommas rest

/-- `re.search(r"\{.*\}", text2, flags=re.DOTALL)`: the greedy match runs
from the first opening brace to the last closing brace, provided the latter
comes after the former. -/
def findBraceSpan (s : List Char) : Option (List Char) :=
  match s.findIdx? (fun c => c = lbrace), s.reverse.findIdx? (fun c => c = rbrace) with
  | some i, some jr =>
    let j := s.length - 1 - jr
    if i < j then some ((s.drop i).take (j - i + 1)) else none
  | _, _ => none

/-- JSON whitespace (the characters skipped between tokens by `json.loads`). -/
def isWsJ (c : Char) : Bool := c = ' ' || c = '\t' || c = '\n' || c = '\r'

/-- Skip JSON whitespace. -/
def skipWsJ (s : List Char) : List Char := s.dropWhile isWsJ

/-- Value of a hexadecimal digit. -/
def hexVal (c : Char) : Option Nat :=
  if '0' ≤ c ∧ c ≤ '9' then some (c.toNat - 48)
  else if 'a' ≤ c ∧ c ≤ 'f' then some (c.toNat - 87)
  else if 'A' ≤ c ∧ c ≤ 'F' then some (c.toNat - 55)
  else none

/-- Code point of a single-character JSON escape. -/
def escCode (e : Char) : Option Nat :=
  if e = '"' then some 34
  else if e = '\\' then some 92
  else if e = '/' then some 47
  else if e = 'b' then some 8
  else if e = 'f' then some 12
  else if e = 'n' then some 10
  else if e = 'r' then some 13
  else if e = 't' then some 9
  else none

/-- Body of a JSON string literal after the opening quote, as a list of code
points: ends at an unescaped quote, rejects raw control characters (strict
mode), decodes the single-character escapes and `\uXXXX`. -/
def parseStrBody : Nat → List Char → Option (List Nat × List Char)
  | 0, _ => none
  | _, [] => none
  | fuel + 1, c :: rest =>
    if c = '"' then some ([], rest)
    else if c = '\\' then
      match rest with
      | [] => none
      | e :: rest2 =>
        if e = 'u' then
          match rest2 with
          | h1 :: h2 :: h3 :: h4 :: rest3 =>
            match hexVal h1, hexVal h2, hexVal h3, hexVal h4 with
            | some a, some b, some c4, some d =>
              match parseStrBody fuel rest3 with
              | some (codes, r) => some ((((a * 16 + b) * 16 + c4) * 16 + d) :: codes, r)
              | none => none
            | _, _, _, _ => none
          | _ => none
        else
          match escCode e with
          | some code =>
            match parseStrBody fuel rest2 with
            | some (codes, r) => some (code :: codes, r)
            | none => none
          | none => none
    else if c.toNat < 32 then none
    else
      match parseStrBody fuel rest with
      | some (codes, r) => some (c.toNat :: codes, r)
      | none => none

/-- Combine an adjacent `\uXXXX\uXXXX` surrogate pair into one code point,
as Python's decoder does. -/
def combineSurr : List Nat → List Nat
  | a :: b :: rest =>
    if 0xd800 ≤ a ∧ a ≤ 0xdbff ∧ 0xdc00 ≤ b ∧ b ≤ 0xdfff then
      (0x10000 + (a - 0xd800) * 0x400 + (b - 0xdc00)) :: combineSurr rest
    else a :: combineSurr (b :: rest)
  | l => l

/-- Code points to characters.  A lone surrogate (representable in a Python
`str` but not in a Lean `Char`) collapses to NUL under `Char.ofNat`; no claim
exercises that corner. -/
def codesToStr (codes : List Nat) : List Char := (combineSurr codes).map Char.ofNat

/-- Consume a maximal run of decimal digits, returning value, digit count and
the rest. -/
def jDigitsAux : Nat → Nat → List Char → Nat × Nat × List Char
  | acc, cnt, [] => (acc, cnt, [])
  | acc, cnt, c :: rest =>
    if c.isDigit then jDigitsAux (acc * 10 + (c.toNat - 48)) (cnt + 1) rest
    else (acc, cnt, c :: rest)

/-- A JSON number literal at the head of the input, per the strict grammar
`-?(0|[1-9]\d*)(\.\d+)?([eE][-+]?\d+)?`: an integer when it has neither
fraction nor exponent, a float otherwise. -/
def parseJNum (s : List Char) : Option (PyVal × List Char) :=
  let signed : Bool × List Char :=
    match s with
    | c :: rest => if c = '-' then (true, rest) else (false, s)
    | [] => (false, s)
  let neg := signed.1
  match signed.2 with
  | [] => none
  | c :: _ =>
    if ¬ c.isDigit then none
    else
      let (ip, ic, s2) := jDigitsAux 0 0 signed.2
      if 2 ≤ ic ∧ c = '0' then none
      else
        let fracRes : Option (Nat × Nat × List Char) :=
          match s2 with
          | fc0 :: rest =>
            if fc0 = '.' then
              let (fp, fc, r) := jDigitsAux 0 0 rest
              if fc = 0 then none else some (fp, fc, r)
            else some (0, 0, s2)
          | [] => some (0, 0, [])
        match fracRes with
        | none => none
        | some (fp, fc, s3) =>
          let expRes : Option (Option Int × List Char) :=
            match s3 with
            | e0 :: rest =>
              if e0 = 'e' ∨ e0 = 'E' then
                let esigned : Bool × List Char :=
                  match rest with
                  | c2 :: rest2 =>
                    if c2 = '-' then (true, rest2)
                    else if c2 = '+' then (false, rest2)
                    else (false, rest)
                  | [] => (false, [])
                let (ev, ec, r) := jDigitsAux 0 0 esigned.2
                if ec = 0 then none
                else some (some (if esigned.1 then -(ev : Int) else (ev : Int)), r)
              else some (none, s3)
            | [] => some (none, [])
          match expRes with
          | none => none
          | some (eo, s4) =>
            if fc = 0 ∧ eo = none then
              some (.vint (if neg then -(ip : Int) else (ip : Int)), s4)
            else
              let e : Int := eo.getD 0
              let mag : ℚ := ((ip : ℚ) + (fp : ℚ) / (10 : ℚ) ^ fc) * (10 : ℚ) ^ e
              some (.vfloat (if neg then -mag else mag), s4)

/-- Update an ordered association list the way `dict` assignment does: an
existing key keeps its position and gets the new value, a new key is appended. -/
def dictUpd : List (List Char × PyVal) → List Char → PyVal → List (List Char × PyVal)
  | [], k, v => [(k, v)]
  | (k', v') :: rest, k, v =>
    if k' = k then (k', v) :: rest else (k', v') :: dictUpd rest k v

/-- The elements of a JSON array after the opening bracket and leading
whitespace (the non-empty case): value, then `,` value ... until `]`. -/
def parseElems (pv : List Char → Option (PyVal × List Char)) :
    Nat → List Char → Option (List PyVal × List Char)
  | 0, _ => none
  | fuel + 1, s =>
    match pv s with
    | none => none
    | some (v, r) =>
      match skipWsJ r with
      | c :: rest =>
        if c = ',' then
          match parseElems pv fuel (skipWsJ rest) with
          | some (vs, r2) => some (v :: vs, r2)
          | none => none
        else if c = ']' then some ([v], rest)
        else none
      | [] => none

/-- The members of a JSON object positioned at the opening quote of a key
(the non-empty case): `"key" : value`, then `,` pairs ... until the closing
brace. -/
def parseMembers (pv : List Char → Option (PyVal × List Char)) :
    Nat → List Char → Option (List (List Char × PyVal) × List Char)
  | 0, _ => none
  | fuel + 1, s =>
    match s with
    | [] => none
    | q :: rest =>
      if q ≠ '"' then none
      else
        match parseStrBody (rest.length + 1) rest with
        | none => none
        | some (kcodes, r1) =>
          match skipWsJ r1 with
          | [] => none
          | colon :: r2 =>
            if colon ≠ ':' then none
            else
              match pv (skipWsJ r2) with
              | none => none
              | some (v, r3) =>
                match skipWsJ r3 with
                | [] => none
                | c :: r4 =>
                  if c = ',' then
                    match parseMembers pv fuel (skipWsJ r4) with
                    | some (pairs, r5) => some ((codesToStr kcodes, v) :: pairs, r5)
                    | none => none
                  else if c = rbrace then some ([(codesToStr kcodes, v)], r4)
                  else none

/-- One JSON value at the head of the input (whitespace already skipped by
the caller, as in Python's scanner). -/
def parseVal : Nat → List Char → Option (PyVal × List Char)
  | 0, _ => none
  | fuel + 1, s =>
    match s with
    | [] => none
    | c :: rest =>
      if c = '"' then
        match parseStrBody (rest.length + 1) rest with
        | some (codes, r) => some (.vstr (codesToStr codes), r)
        | none => none
      else if c = lbrace then
        match skipWsJ rest with
        | c2 :: rest2 =>
          if c2 = rbrace then some (.vdict [], rest2)
          else
            match parseMembers (parseVal fuel) fuel (skipWsJ rest) with
            | some (pairs, r2) =>
              some (.vdict (pairs.foldl (fun d kv => dictUpd d kv.1 kv.2) []), r2)
            | none => none
        | [] => none
      else if c = '[' then
        match skipWsJ rest with
        | c2 :: rest2 =>
          if c2 = ']' then some (.vlist [], rest2)
          else
            match parseElems (parseVal fuel) fuel (skipWsJ rest) with
            | some (vs, r2) => some (.vlist vs, r2)
            | none => none
        | [] => none
      else if startsL ['t', 'r', 'u', 'e'] s then some (.vbool true, s.drop 4)
      else if startsL ['f', 'a', 'l', 's', 'e'] s then some (.vbool false, s.drop 5)
      else if startsL ['n', 'u', 'l', 'l'] s then some (.vnone, s.drop 4)
      else parseJNum s

/-- `json.loads`: skip leading whitespace, parse one value, require only
whitespace to follow.  The fuel bounds the recursion depth of the scanner and
is generous enough never to run out on an input of this length. -/
def json_loads (s : List Char) : Option PyVal :=
  match parseVal (8 * (s.length + 2)) (skipWsJ s) with
  | some (v, r) => if skipWsJ r = [] then some v else none
  | none => none

/-- `extract_json_loose` (app.py lines 179-206), observed as the Python
caller sees it: a parsed value on success and Python `None` (`vnone`) on any
failure — which coincides with the value parsed from `null`, exactly as in
the source, where `return None` and `return json.loads("null")` are
indistinguishable.  Every exception is caught in the source, so the function
is total. -/
def extract_json_loose (text : List Char) : PyVal :=
  if text = [] then .vnone
  else
    let text2 := stripFence (removeFences text)
    match json_loads text2 with
    | some v => v
    | none =>
      match findBraceSpan text2 with
      | none => .vnone
      | some blob =>
        match json_loads blob with
        | some v => v
        | none =>
          match json_loads (repairCommas blob) with
          | some v => v
          | none => .vnone

/-- A code-fence wrapping of a text, with or without the `json` tag:
three backticks, the optional tag, a newline, the text, a newline, and three
closing backticks. -/
def wrapFence (tag : Bool) (s : List Char) : List Char :=
  btick :: btick :: btick ::
    ((if tag then ['j', 's', 'o', 'n'] else []) ++
      '\n' :: (s ++ '\n' :: btick :: btick :: btick :: []))

/-- Digit run of Python `int`/`float` literal parsing: decimal digits with
single underscores allowed between digits.  Returns the value, the digit
count and the unconsumed rest; a misplaced underscore invalidates the whole
literal (`none`). -/
def fDigitsAux : Nat → Nat → List Char → Option (Nat × Nat × List Char)
  | acc, cnt, [] => some (acc, cnt, [])
  | acc, cnt, [c] =>
    if c.isDigit then some (acc * 10 + (c.toNat - 48), cnt + 1, [])
    else if c = '_' then none
    else some (acc, cnt, [c])
  | acc, cnt, c :: c2 :: rest2 =>
    if c.isDigit then fDigitsAux (acc * 10 + (c.toNat - 48)) (cnt + 1) (c2 :: rest2)
    else if c = '_' then
      if 0 < cnt ∧ c2.isDigit then fDigitsAux (acc * 10 + (c2.toNat - 48)) (cnt + 1) rest2
      else none
    else some (acc, cnt, c :: c2 :: rest2)

/-- Python `int(s)` on a string: surrounding whitespace, an optional sign and
a non-empty digit run (underscores between digits allowed) consuming the
whole string. -/
def parseIntPy (s : List Char) : Option Int :=
  let s1 := stripWS s
  let signed : Bool × List Char :=
    match s1 with
    | c :: rest =>
      if c = '-' then (true, rest) else if c = '+' then (false, rest) else (false, s1)
    | [] => (false, [])
  match fDigitsAux 0 0 signed.2 with
  | some (v, cnt, []) =>
    if 0 < cnt then some (if signed.1 then -(v : Int) else (v : Int)) else none
  | _ => none

/-- Python `float(s)` on a string: surrounding whitespace, optional sign,
`digits [. digits] | . digits`, optional exponent; the whole string must be
consumed.  The non-finite literals `inf`/`infinity`/`nan` are outside this
rational model. -/
def parseFloatPy (s : List Char) : Option ℚ :=
  let s1 := stripWS s
  let signed : Bool × List Char :=
    match s1 with
    | c :: rest =>
      if c = '-' then (true, rest) else if c = '+' then (false, rest) else (false, s1)
    | [] => (false, [])
  match fDigitsAux 0 0 signed.2 with
  | none => none
  | some (ip, ic, r1) =>
    let fracRes : Option (Nat × Nat × List Char) :=
      match r1 with
      | c :: rest => if c = '.' then fDigitsAux 0 0 rest else some (0, 0, r1)
      | [] => some (0, 0, [])
    match fracRes with
    | none => none
    | some (fp, fc, r2) =>
      if ic = 0 ∧ fc = 0 then none
      else
        let expRes : Option (Int × List Char) :=
          match r2 with
          | c :: rest =>
            if c = 'e' ∨ c = 'E' then
              let esigned : Bool × List Char :=
                match rest with
                | c2 :: rest2 =>
                  if c2 = '-' then (true, rest2)
                  else if c2 = '+' then (false, rest2)
                  else (false, rest)
                | [] => (false, [])
              match fDigitsAux 0 0 esigned.2 with
              | some (ev, ec, r3) =>
                if 0 < ec then some (if esigned.1 then -(ev : Int) else (ev : Int), r3)
                else none
              | none => none
            else some (0, r2)
          | [] => some (0, [])
        match expRes with
        | none => none
        | some (e, r3) =>
          if r3 = [] then
            let mag : ℚ := ((ip : ℚ) + (fp : ℚ) / (10 : ℚ) ^ fc) * (10 : ℚ) ^ e
            some (if signed.1 then -mag else mag)
          else none

/-- Integer truncation toward zero, as Python `int(float)` does. -/
def truncQ (q : ℚ) : Int := if 0 ≤ q then ⌊q⌋ else ⌈q⌉

/-- Python `int(x)` on an arbitrary value: booleans are 0/1, floats truncate
toward zero, strings are parsed, everything else raises (`none`). -/
def pyToInt : PyVal → Option Int
  | .vbool b => some (if b then 1 else 0)
  | .vint n => some n
  | .vfloat q => some (truncQ q)
  | .vstr s => parseIntPy s
  | _ => none

/-- Python `float(x)` on an arbitrary value. -/
def pyToFloat : PyVal → Option ℚ
  | .vbool b => some (if b then 1 else 0)
  | .vint n => some (n : ℚ)
  | .vfloat q => some q
  | .vstr s => parseFloatPy s
  | _ => none

/-- `clamp_intensity` (app.py lines 149-154): `max(1, min(10, int(x)))`, and
the default 5 when `int(x)` raises. -/
def clamp_intensity (x : PyVal) : Int :=
  match pyToInt x with
  | some v => max 1 (min 10 v)
  | none => 5

/-- `clamp_confidence` (app.py lines 157-162): `max(0.0, min(1.0, float(x)))`,
and the default 0.75 when `float(x)` raises. -/
def clamp_confidence (x : PyVal) : ℚ :=
  match pyToFloat x with
  | some v => max 0 (min 1 v)
  | none => 3 / 4

/-- Ordered-dictionary lookup. -/
def dictGet : List (List Char × PyVal) → List Char → Option PyVal
  | [], _ => none
  | (k', v') :: rest, k => if k' = k then some v' else dictGet rest k

/-- Whether a value is Python `None`. -/
def isVNone : PyVal → Bool
  | .vnone => true
  | _ => false

/-- `safe_get` (app.py lines 144-146): `d.get(key, default)`, with a stored
`None` also replaced by the default. -/
def safe_get (d : List (List Char × PyVal)) (key : List Char) (dflt : PyVal) : PyVal :=
  match dictGet d key with
  | some v => if isVNone v then dflt else v
  | none => dflt

/-- The dictionary key `emotion`. -/
def kEmotion : List Char := ['e', 'm', 'o', 't', 'i', 'o', 'n']

/-- The dictionary key `genre`. -/
def kGenre : List Char := ['g', 'e', 'n', 'r', 'e']

/-- The dictionary key `tone`. -/
def kTone : List Char := ['t', 'o', 'n', 'e']

/-- The dictionary key `intensity`. -/
def kIntensity : List Char := ['i', 'n', 't', 'e', 'n', 's', 'i', 't', 'y']

/-- The dictionary key `confidence`. -/
def kConfidence : List Char := ['c', 'o', 'n', 'f', 'i', 'd', 'e', 'n', 'c', 'e']

/-- One row of the batch summary table (a Python dict in the source; the
`error` key is present exactly on rows recorded for a failed scene). -/
structure BatchRow where
  scene_index : Int
  emotion : PyVal
  genre : PyVal
  tone : PyVal
  intensity : PyVal
  confidence : PyVal
  error : Option (List Char)

/-- The row appended for scene `i` in the batch loop (app.py lines 794-820):
on success, the fields extracted from the returned dict with `safe_get` and
the clamps; on a caught exception, empty strings and the error message.
`call_groq` raises unless its parsed result is a dict, so a successful
analysis is modelled as returning the dict's entries. -/
def batchRow (i : Int) (res : Except (List Char) (List (List Char × PyVal))) : BatchRow :=
  match res with
  | .ok data =>
    { scene_index := i
      emotion := safe_get data kEmotion (.vstr [])
      genre := safe_get data kGenre (.vstr [])
      tone := safe_get data kTone (.vstr [])
      intensity := .vint (clamp_intensity (safe_get data kIntensity (.vint 5)))
      confidence := .vfloat (clamp_confidence (safe_get data kConfidence (.vfloat (3 / 4))))
      error := none }
  | .error e =>
    { scene_index := i
      emotion := .vstr []
      genre := .vstr []
      tone := .vstr []
      intensity := .vstr []
      confidence := .vstr []
      error := some e }

/-- The batch loop of `main` (app.py lines 792-822): iterate the scenes with
`enumerate(start=1)`, append one row per scene, catching any exception of the
per-scene analysis into an error row and continuing. -/
def runBatchGo (analyze : List Char → Except (List Char) (List (List Char × PyVal))) :
    Int → List (List Char) → List BatchRow → List BatchRow
  | _, [], acc => acc
  | i, sc :: rest, acc => runBatchGo analyze (i + 1) rest (acc ++ [batchRow i (analyze sc)])

/-- The whole batch run over a scene list. -/
def runBatch (analyze : List Char → Except (List Char) (List (List Char × PyVal)))
    (scenes : List (List Char)) : List BatchRow :=
  runBatchGo analyze 1 scenes []

/-- A sample scene with an `INT.` heading, used as a concrete witness input
(68 characters, ends with a newline). -/
def sampleSceneA : List Char :=
  ("INT. ROOM - DAY\nThe quick brown fox jumps over the lazy dog again.\n").toList

/-- A sample scene with an `EXT.` heading, used as a concrete witness input
(71 characters). -/
def sampleSceneB : List Char :=
  ("EXT. STREET - NIGHT\nThe quick brown fox jumps over the lazy dog twice.").toList

/-- The two sample scenes concatenated into one script. -/
def sampleScript : List Char := sampleSceneA ++ sampleSceneB

/-- Hexadecimal digit test. -/
def isHexDigit (c : Char) : Bool :=
  c.isDigit || ('a' ≤ c && c ≤ 'f') || ('A' ≤ c && c ≤ 'F')

/-- Modelled from the spec's words, for comparison with `normalize_hex`: a
string "of the form #RRGGBB" — a hash sign followed by exactly six
hexadecimal digits.  (`normalize_hex` itself never checks hex digits.) -/
def specHexForm : List Char → Bool
  | c :: rest => c = '#' && rest.length = 6 && rest.all isHexDigit
  | [] => false

/-! ## Lemmas about stripping -/

theorem length_stripOn_le (p : Char → Bool) (s : List Char) :
    (stripOn p s).length ≤ s.length := by
  unfold stripOn
  calc ((((s.dropWhile p).reverse).dropWhile p).reverse).length
      = (((s.dropWhile p).reverse).dropWhile p).length := List.length_reverse _
    _ ≤ ((s.dropWhile p).reverse).length := (List.dropWhile_sublist p).length_le
    _ = (s.dropWhile p).length := List.length_reverse _
    _ ≤ s.length := (List.dropWhile_sublist p).length_le

theorem stripOn_sublist (p : Char → Bool) (s : List Char) :
    List.Sublist (stripOn p s) s := by
  unfold stripOn
  have h2 := List.reverse_sublist.mpr (List.dropWhile_sublist (l := (s.dropWhile p).reverse) p)
  rw [List.reverse_reverse] at h2
  exact h2.trans (List.dropWhile_sublist p)

theorem stripOn_eq_self {p : Char → Bool} {s : List Char}
    (h1 : ∀ x, s.head? = some x → p x = false)
    (h2 : ∀ x, s.getLast? = some x → p x = false) :
    stripOn p s = s := by
  cases s with
  | nil => rfl
  | cons c r =>
    have hc : p c = false := h1 c rfl
    unfold stripOn
    have hd1 : List.dropWhile p (c :: r) = c :: r :=
      List.dropWhile_cons_of_neg (by simp [hc])
    rw [hd1]
    rcases hrev : (c :: r).reverse with _ | ⟨e, es⟩
    · exact absurd (congrArg List.length hrev) (by simp)
    · have he : (c :: r).getLast? = some e := by
        rw [← List.head?_reverse, hrev]; rfl
      have hpe : p e = false := h2 e he
      have hd2 : List.dropWhile p (e :: es) = e :: es :=
        List.dropWhile_cons_of_neg (by simp [hpe])
      calc ((e :: es).dropWhile p).reverse
          = (e :: es).reverse := by rw [hd2]
        _ = ((c :: r).reverse).reverse := by rw [hrev]
        _ = c :: r := List.reverse_reverse _

theorem stripOn_cons_ws {p : Char → Bool} {c : Char} (hc : p c = true) (s : List Char) :
    stripOn p (c :: s) = stripOn p s := by
  unfold stripOn
  rw [List.dropWhile_cons_of_pos hc]

theorem stripOn_last_ne {p : Char → Bool} {s : List Char} {x : Char}
    (hx : (stripOn p s).getLast? = some x) : p x = false := by
  unfold stripOn at hx
  rw [List.getLast?_reverse] at hx
  have h := List.head?_dropWhile_not p ((s.dropWhile p).reverse)
  rw [hx] at h
  exact h

theorem stripOn_head_ne {p : Char → Bool} {s : List Char} {x : Char}
    (hx : (stripOn p s).head? = some x) : p x = false := by
  unfold stripOn at hx
  rw [List.head?_reverse] at hx
  have hdec := List.takeWhile_append_dropWhile (p := p) (l := (s.dropWhile p).reverse)
  have hlast : ((s.dropWhile p).reverse).getLast? = some x := by
    rw [← hdec, List.getLast?_append, hx]; rfl
  rw [List.getLast?_reverse] at hlast
  have h := List.head?_dropWhile_not p s
  rw [hlast] at h
  exact h

theorem stripOn_idem (p : Char → Bool) (s : List Char) :
    stripOn p (stripOn p s) = stripOn p s :=
  stripOn_eq_self (fun _ hx => stripOn_head_ne hx) (fun _ hx => stripOn_last_ne hx)

theorem stripOn_ne_nil {p : Char → Bool} {s : List Char} {c : Char}
    (hc : c ∈ s) (hpc : p c = false) : stripOn p s ≠ [] := by
  intro h
  unfold stripOn at h
  rw [List.reverse_eq_nil_iff] at h
  have h2 : ∀ x ∈ (s.dropWhile p).reverse, p x := List.dropWhile_eq_nil_iff.mp h
  have hcd : c ∈ s.dropWhile p := by
    have := List.takeWhile_append_dropWhile (p := p) (l := s)
    rw [← this] at hc
    rcases List.mem_append.mp hc with h3 | h3
    · exact absurd (List.mem_takeWhile_imp h3) (by simp [hpc])
    · exact h3
  have := h2 c (by simpa using hcd)
  simp [hpc] at this

theorem stripOn_decomp (p : Char → Bool) (s : List Char) :
    ∃ w1 w2, s = w1 ++ stripOn p s ++ w2 ∧
      (∀ c ∈ w1, p c = true) ∧ (∀ c ∈ w2, p c = true) := by
  have hd1 : s.dropWhile p = stripOn p s ++ ((s.dropWhile p).reverse.takeWhile p).reverse := by
    conv_lhs => rw [← List.reverse_reverse (s.dropWhile p)]
    conv_lhs => rw [← List.takeWhile_append_dropWhile (p := p) (l := (s.dropWhile p).reverse)]
    rw [List.reverse_append]
    rfl
  refine ⟨s.takeWhile p, ((s.dropWhile p).reverse.takeWhile p).reverse, ?_, ?_, ?_⟩
  · conv_lhs => rw [← List.takeWhile_append_dropWhile (p := p) (l := s)]
    conv_lhs => rw [hd1]
    exact (List.append_assoc _ _ _).symm
  · intro c hc; exact List.mem_takeWhile_imp hc
  · intro c hc
    rw [List.mem_reverse] at hc
    exact List.mem_takeWhile_imp hc

theorem stripOn_append_ws {p : Char → Bool} {c : Char} (hc : p c = true) (s : List Char) :
    stripOn p (s ++ [c]) = stripOn p s := by
  unfold stripOn
  rw [List.dropWhile_append]
  by_cases h : (s.dropWhile p).isEmpty
  · rw [if_pos h]
    have h0 : s.dropWhile p = [] := by simpa [List.isEmpty_iff] using h
    rw [h0]
    simp [List.dropWhile, hc]
  · rw [if_neg h]
    rw [List.reverse_append]
    simp only [List.reverse_cons, List.reverse_nil, List.nil_append, List.singleton_append]
    rw [List.dropWhile_cons_of_pos hc]

/-! ## C5: short documents -/

/-- C5: for every document string of fewer than 30 characters (including the
empty string), `scene_splitter` returns the empty sequence: the guard
compares the length of the stripped text, which is at most the length of the
document, against 30. -/
theorem scene_splitter_short (s : List Char) (h : s.length < 30) :
    scene_splitter s = [] := by
  have hle : (stripWS s).length ≤ s.length := length_stripOn_le _ _
  unfold scene_splitter
  rw [if_pos (Or.inr (lt_of_le_of_lt hle h))]

/-- Witness for C5 at the 5-character document `short` and at the empty
document. -/
theorem scene_splitter_short_witness :
    scene_splitter ['s', 'h', 'o', 'r', 't'] = [] ∧ scene_splitter [] = [] :=
  ⟨scene_splitter_short _ (by decide), scene_splitter_short _ (by decide)⟩

/-! ## C7: hex color normalization -/

/-- Counterexample to C7 as stated: the malformed 6-character input `zzzzzz`
is not of the form `#RRGGBB` (no hex digits are checked), yet `normalize_hex`
passes it through as `#zzzzzz` instead of reverting to the default
`#111111`. -/
theorem normalize_hex_counterexample :
    normalize_hex ['z', 'z', 'z', 'z', 'z', 'z'] = ['#', 'z', 'z', 'z', 'z', 'z', 'z']
    ∧ specHexForm ['#', 'z', 'z', 'z', 'z', 'z', 'z'] = false
    ∧ normalize_hex ['z', 'z', 'z', 'z', 'z', 'z'] ≠ ['#', '1', '1', '1', '1', '1', '1'] := by
  refine ⟨by decide, by decide, by decide⟩

/-- C7 as amended: for every input, `normalize_hex` returns a 7-character
string beginning with `#`; a 3-character shorthand (trimmed, with or without
a leading `#`) is expanded by doubling each character.  Hex digits are never
validated, so a malformed 6-character input passes through unchanged rather
than reverting to the default. -/
theorem normalize_hex_shape :
    (∀ h : List Char, (normalize_hex h).length = 7 ∧ (normalize_hex h).head? = some '#')
    ∧ (∀ a b c : Char, isPyWs a = false → isPyWs c = false → a ≠ '#' →
        normalize_hex [a, b, c] = ['#', a, a, b, b, c, c])
    ∧ (∀ a b c : Char, isPyWs c = false →
        normalize_hex ['#', a, b, c] = ['#', a, a, b, b, c, c]) := by
  refine ⟨?_, ?_, ?_⟩
  · intro h
    simp only [normalize_hex]
    split_ifs <;>
      first
      | exact ⟨rfl, rfl⟩
      | (constructor
         · omega
         · first | rfl | assumption)
  · intro a b c hwa hwc hne
    have hs : stripWS [a, b, c] = [a, b, c] := by
      refine stripOn_eq_self (fun x hx => ?_) (fun x hx => ?_)
      · have : x = a := by simpa using hx.symm
        rw [this]; exact hwa
      · have : x = c := by
          simp only [List.getLast?_cons_cons] at hx
          simpa using hx.symm
        rw [this]; exact hwc
    simp [normalize_hex, hs, hne]
  · intro a b c hwc
    have hs : stripWS ['#', a, b, c] = ['#', a, b, c] := by
      refine stripOn_eq_self (fun x hx => ?_) (fun x hx => ?_)
      · have : x = '#' := by simpa using hx.symm
        rw [this]; decide
      · have : x = c := by
          simp only [List.getLast?_cons_cons] at hx
          simpa using hx.symm
        rw [this]; exact hwc
    simp [normalize_hex, hs]

/-- Witness for C7's amended statement: the shorthand expansions `abc` and
`#abc`, and the universal shape at a sample input. -/
theorem normalize_hex_shape_witness :
    normalize_hex ['a', 'b', 'c'] = ['#', 'a', 'a', 'b', 'b', 'c', 'c']
    ∧ normalize_hex ['#', 'a', 'b', 'c'] = ['#', 'a', 'a', 'b', 'b', 'c', 'c']
    ∧ (normalize_hex ['x']).length = 7 :=
  ⟨normalize_hex_shape.2.1 'a' 'b' 'c' (by decide) (by decide) (by decide),
   normalize_hex_shape.2.2 'a' 'b' 'c' (by decide),
   (normalize_hex_shape.1 ['x']).1⟩

/-! ## C8: clamp functions -/

theorem clamp_intensity_vint (n : Int) : clamp_intensity (.vint n) = max 1 (min 10 n) := rfl

theorem clamp_confidence_vfloat (q : ℚ) : clamp_confidence (.vfloat q) = max 0 (min 1 q) := rfl

theorem clamp_intensity_range (x : PyVal) :
    1 ≤ clamp_intensity x ∧ clamp_intensity x ≤ 10 := by
  unfold clamp_intensity
  cases h : pyToInt x
  · exact ⟨by norm_num, by norm_num⟩
  · exact ⟨le_max_left _ _, max_le (by norm_num) (min_le_left _ _)⟩

theorem clamp_confidence_range (x : PyVal) :
    0 ≤ clamp_confidence x ∧ clamp_confidence x ≤ 1 := by
  unfold clamp_confidence
  cases h : pyToFloat x
  · exact ⟨by norm_num, by norm_num⟩
  · exact ⟨le_max_left _ _, max_le zero_le_one (min_le_left _ _)⟩

/-- C8: the clamp helpers are idempotent and total.  An integer already in
`[1, 10]` is returned unchanged by `clamp_intensity`; a float already in
`[0, 1]` is returned unchanged by `clamp_confidence`; any input whose
conversion raises yields the documented defaults 5 and 0.75; every output
lies in the respective range, so re-clamping an output returns it
unchanged. -/
theorem clamp_idempotent :
    (∀ n : Int, 1 ≤ n → n ≤ 10 → clamp_intensity (.vint n) = n)
    ∧ (∀ q : ℚ, 0 ≤ q → q ≤ 1 → clamp_confidence (.vfloat q) = q)
    ∧ (∀ x : PyVal, pyToInt x = none → clamp_intensity x = 5)
    ∧ (∀ x : PyVal, pyToFloat x = none → clamp_confidence x = 3 / 4)
    ∧ (∀ x : PyVal, 1 ≤ clamp_intensity x ∧ clamp_intensity x ≤ 10)
    ∧ (∀ x : PyVal, 0 ≤ clamp_confidence x ∧ clamp_confidence x ≤ 1)
    ∧ (∀ x : PyVal, clamp_intensity (.vint (clamp_intensity x)) = clamp_intensity x)
    ∧ (∀ x : PyVal, clamp_confidence (.vfloat (clamp_confidence x)) = clamp_confidence x) := by
  refine ⟨?_, ?_, ?_, ?_, clamp_intensity_range, clamp_confidence_range, ?_, ?_⟩
  · intro n h1 h10
    rw [clamp_intensity_vint]
    omega
  · intro q h0 h1
    rw [clamp_confidence_vfloat, min_eq_right h1, max_eq_right h0]
  · intro x h
    unfold clamp_intensity
    rw [h]
  · intro x h
    unfold clamp_confidence
    rw [h]
  · intro x
    rcases clamp_intensity_range x with ⟨h1, h10⟩
    rw [clamp_intensity_vint]
    omega
  · intro x
    rcases clamp_confidence_range x with ⟨h0, h1⟩
    rw [clamp_confidence_vfloat, min_eq_right h1, max_eq_right h0]

/-- Witness for C8 at concrete inputs: 7 is kept, 0 is kept, `None` fails
both conversions and yields the defaults, and re-clamping a clamped value is
the identity. -/
theorem clamp_idempotent_witness :
    clamp_intensity (.vint 7) = 7
    ∧ clamp_confidence (.vfloat 0) = 0
    ∧ clamp_intensity .vnone = 5
    ∧ clamp_confidence .vnone = 3 / 4
    ∧ clamp_intensity (.vint (clamp_intensity (.vstr ['9', '9'])))
        = clamp_intensity (.vstr ['9', '9']) :=
  ⟨clamp_idempotent.1 7 (by decide) (by decide),
   clamp_idempotent.2.1 0 le_rfl zero_le_one,
   clamp_idempotent.2.2.1 .vnone rfl,
   clamp_idempotent.2.2.2.1 .vnone rfl,
   clamp_idempotent.2.2.2.2.2.2.1 (.vstr ['9', '9'])⟩

/-! ## C9: batch failure isolation -/

theorem runBatchGo_acc (analyze : List Char → Except (List Char) (List (List Char × PyVal))) :
    ∀ (scenes : List (List Char)) (i : Int) (acc : List BatchRow),
      runBatchGo analyze i scenes acc = acc ++ runBatchGo analyze i scenes [] := by
  intro scenes
  induction scenes with
  | nil => intro i acc; simp [runBatchGo]
  | cons sc rest ih =>
    intro i acc
    show runBatchGo analyze (i + 1) rest (acc ++ [batchRow i (analyze sc)]) = _
    rw [ih (i + 1) (acc ++ [batchRow i (analyze sc)])]
    have h2 : runBatchGo analyze i (sc :: rest) [] =
        [batchRow i (analyze sc)] ++ runBatchGo analyze (i + 1) rest [] := by
      show runBatchGo analyze (i + 1) rest ([] ++ [batchRow i (analyze sc)]) = _
      rw [ih (i + 1) ([] ++ [batchRow i (analyze sc)])]
      simp
    rw [h2, List.append_assoc]

theorem runBatchGo_length (analyze : List Char → Except (List Char) (List (List Char × PyVal))) :
    ∀ (scenes : List (List Char)) (i : Int),
      (runBatchGo analyze i scenes []).length = scenes.length := by
  intro scenes
  induction scenes with
  | nil => intro i; rfl
  | cons sc rest ih =>
    intro i
    rw [show runBatchGo analyze i (sc :: rest) [] =
        runBatchGo analyze (i + 1) rest ([] ++ [batchRow i (analyze sc)]) from rfl]
    rw [runBatchGo_acc analyze rest (i + 1) ([] ++ [batchRow i (analyze sc)])]
    simp [ih (i + 1)]

theorem runBatchGo_getElem (analyze : List Char → Except (List Char) (List (List Char × PyVal))) :
    ∀ (scenes : List (List Char)) (i : Int) (k : Nat) (hk : k < scenes.length),
      (runBatchGo analyze i scenes [])[k]? =
        some (batchRow (i + (k : Int)) (analyze (scenes[k]))) := by
  intro scenes
  induction scenes with
  | nil => intro i k hk; simp at hk
  | cons sc rest ih =>
    intro i k hk
    rw [show runBatchGo analyze i (sc :: rest) [] =
        runBatchGo analyze (i + 1) rest ([] ++ [batchRow i (analyze sc)]) from rfl]
    rw [runBatchGo_acc analyze rest (i + 1) ([] ++ [batchRow i (analyze sc)])]
    cases k with
    | zero => simp
    | succ k' =>
      have hk' : k' < rest.length := by simpa using hk
      simp only [List.nil_append, List.singleton_append, List.getElem?_cons_succ]
      rw [ih (i + 1) k' hk']
      have harith : i + 1 + (k' : Int) = i + ((k' + 1 : Nat) : Int) := by push_cast; ring
      rw [harith]
      rfl

/-- C9: the batch loop records exactly one row per processed scene, in
order (row `k` carries `scene_index = k + 1` and is computed from scene `k`
alone), and a failing per-scene analysis is caught and recorded as a row
whose `error` field holds the message, without affecting the other rows. -/
theorem batch_loop_isolation
    (analyze : List Char → Except (List Char) (List (List Char × PyVal)))
    (scenes : List (List Char)) :
    (runBatch analyze scenes).length = scenes.length
    ∧ (∀ (k : Nat) (hk : k < scenes.length),
        (runBatch analyze scenes)[k]? =
          some (batchRow ((k : Int) + 1) (analyze (scenes[k]))))
    ∧ (∀ (k : Nat) (hk : k < scenes.length) (e : List Char),
        analyze (scenes[k]) = .error e →
        ∃ r, (runBatch analyze scenes)[k]? = some r ∧ r.error = some e) := by
  refine ⟨runBatchGo_length analyze scenes 1, ?_, ?_⟩
  · intro k hk
    have h := runBatchGo_getElem analyze scenes 1 k hk
    rw [show (1 : Int) + (k : Int) = (k : Int) + 1 from by ring] at h
    exact h
  · intro k hk e he
    refine ⟨batchRow ((k : Int) + 1) (analyze (scenes[k])), ?_, ?_⟩
    · have h := runBatchGo_getElem analyze scenes 1 k hk
      rw [show (1 : Int) + (k : Int) = (k : Int) + 1 from by ring] at h
      exact h
    · rw [he]; rfl

/-- Witness for C9: a two-scene batch where the second scene fails; the run
has one row per scene and the failing scene yields a row carrying the error
message. -/
theorem batch_loop_isolation_witness :
    (runBatch (fun sc => if sc = ['B'] then .error ['x'] else .ok []) [['A'], ['B']]).length = 2
    ∧ ∃ r, (runBatch (fun sc => if sc = ['B'] then .error ['x'] else .ok [])
        [['A'], ['B']])[1]? = some r ∧ r.error = some ['x'] :=
  ⟨(batch_loop_isolation _ _).1,
   (batch_loop_isolation _ _).2.2 1 (by decide) ['x'] (by rfl)⟩

/-! ## C4: inputs without a brace span -/

theorem removeFences_sublist (s : List Char) : List.Sublist (removeFences s) s := by
  induction s using removeFences.induct with
  | case1 c1 c2 c3 a b c d rest htrip htag ih =>
    rw [removeFences, if_pos htrip, if_pos htag]
    exact ih.trans (by simpa using List.sublist_append_right [c1, c2, c3, a, b, c, d] rest)
  | case2 c1 c2 c3 a b c d rest htrip htag ih =>
    rw [removeFences, if_pos htrip, if_neg htag]
    exact ih.trans (by simpa using List.sublist_append_right [c1, c2, c3] (a :: b :: c :: d :: rest))
  | case3 c1 c2 c3 a b c d rest htrip ih =>
    rw [removeFences, if_neg htrip]
    exact List.Sublist.cons₂ _ ih
  | case4 c1 c2 c3 rest h1 htrip ih =>
    rw [removeFences]
    · rw [if_pos htrip]
      exact ih.trans (by simpa using List.sublist_append_right [c1, c2, c3] rest)
    · exact h1
  | case5 c1 c2 c3 rest h1 htrip ih =>
    rw [removeFences]
    · rw [if_neg htrip]
      exact List.Sublist.cons₂ _ ih
    · exact h1
  | case6 s h1 h2 =>
    rw [removeFences]
    · exact h1
    · exact h2

theorem brace_pair_sublist {s : List Char} {i j : Nat} (hij : i < j) (hj : j < s.length)
    (hi : s[i] = lbrace) (hjb : s[j] = rbrace) :
    List.Sublist [lbrace, rbrace] s := by
  have hdec := List.take_append_drop j s
  have hdrop : s.drop j = rbrace :: s.drop (j + 1) := by
    rw [List.drop_eq_getElem_cons hj, hjb]
  have hmem : lbrace ∈ s.take j := by
    have h1 : (s.take j)[i]? = s[i]? := List.getElem?_take_of_lt hij
    have h2 : s[i]? = some lbrace := by
      rw [List.getElem?_eq_getElem (Nat.lt_trans hij hj), hi]
    have : (s.take j)[i]? = some lbrace := h1.trans h2
    exact List.getElem?_mem this
  have hl : List.Sublist [lbrace] (s.take j) := List.singleton_sublist.mpr hmem
  have hr : List.Sublist [rbrace] (s.drop j) := by
    rw [hdrop]
    exact List.Sublist.cons₂ _ (List.nil_sublist _)
  have := hl.append hr
  rw [hdec] at this
  exact this

theorem findBraceSpan_some_sublist {s b : List Char} (h : findBraceSpan s = some b) :
    List.Sublist [lbrace, rbrace] s := by
  unfold findBraceSpan at h
  rcases hf1 : s.findIdx? (fun c => c = lbrace) with _ | i
  · rw [hf1] at h; exact absurd h (by simp)
  rcases hf2 : s.reverse.findIdx? (fun c => c = rbrace) with _ | jr
  · rw [hf1, hf2] at h; exact absurd h (by simp)
  rw [hf1, hf2] at h
  by_cases hij : i < s.length - 1 - jr
  · rcases List.findIdx?_eq_some_iff_getElem.mp hf1 with ⟨hi, hpi, _⟩
    rcases List.findIdx?_eq_some_iff_getElem.mp hf2 with ⟨hjr, hpj, _⟩
    have hjr' : jr < s.length := by simpa using hjr
    have hj : s.length - 1 - jr < s.length := by omega
    have hsj : s[s.length - 1 - jr] = rbrace := by
      have := List.getElem?_reverse (l := s) (i := jr) (by simpa using hjr)
      rw [List.getElem?_eq_getElem hjr, List.getElem?_eq_getElem hj] at this
      have hv : s.reverse[jr] = rbrace := by simpa using hpj
      rw [hv] at this
      exact (Option.some.inj this).symm
    have hi0 : i < s.length := hi
    have hsi : s[i] = lbrace := by simpa using hpi
    exact brace_pair_sublist hij hj hsi hsj
  · have h' : (if i < s.length - 1 - jr then
        some (List.take (s.length - 1 - jr - i + 1) (List.drop i s)) else none) = some b := h
    rw [if_neg hij] at h'
    exact absurd h' (by simp)

/-- Counterexample to C4 as stated: the input `5` contains no brace span,
yet `extract_json_loose` parses it directly as the JSON number 5 and returns
that value rather than the failure value `None`. -/
theorem extract_json_no_span_counterexample :
    extract_json_loose ['5'] = .vint 5
    ∧ (PyVal.vint 5 = PyVal.vnone → False) := by
  exact ⟨rfl, by intro h; exact absurd h (by simp)⟩

/-- C4 as amended: for every input that contains no substring starting with
an opening brace and ending with a closing brace (no `{` occurs before a
`}`), and whose fence-stripped, whitespace/backtick-trimmed text is not
itself valid JSON (i.e., it is not a bare JSON literal such as `5`),
`extract_json_loose` returns the failure value `None`.  The embedding is a
total function: in the source every parse attempt sits inside
`try/except`, so no exception escapes. -/
theorem extract_json_loose_no_span (t : List Char)
    (hspan : ¬ List.Sublist [lbrace, rbrace] t)
    (hparse : json_loads (stripFence (removeFences t)) = none) :
    extract_json_loose t = .vnone := by
  unfold extract_json_loose
  by_cases h0 : t = []
  · rw [if_pos h0]
  · rw [if_neg h0]
    cases hfb : findBraceSpan (stripFence (removeFences t)) with
    | none => simp only [hparse, hfb]
    | some blob =>
      exfalso
      have hsub : List.Sublist [lbrace, rbrace] (stripFence (removeFences t)) :=
        findBraceSpan_some_sublist hfb
      have h1 : List.Sublist (stripFence (removeFences t)) t :=
        (stripOn_sublist _ _).trans (removeFences_sublist t)
      exact hspan (hsub.trans h1)

/-- Witness for C4's amended statement at the input `hello`. -/
theorem extract_json_loose_no_span_witness :
    extract_json_loose ['h', 'e', 'l', 'l', 'o'] = .vnone :=
  extract_json_loose_no_span _ (by decide) (by rfl)

/-! ## C2: code-fence wrapped records -/

theorem isTag4_ne (a b c d : Char) (h1 : a ≠ 'j') (h2 : a ≠ 'J') : isTag4 a b c d = false := by
  unfold isTag4
  rw [decide_eq_false h1, decide_eq_false h2]
  rfl

theorem removeFences_keep (c : Char) (rest : List Char)
    (hc : c = btick → rest.take 2 ≠ [btick, btick]) :
    removeFences (c :: rest) = c :: removeFences rest := by
  rcases rest with _ | ⟨x, rest1⟩
  · rfl
  rcases rest1 with _ | ⟨y, rest2⟩
  · rfl
  have hne : ¬(c = btick ∧ x = btick ∧ y = btick) := by
    rintro ⟨h1, h2, h3⟩
    exact hc h1 (by rw [show (x :: y :: rest2).take 2 = [x, y] from rfl, h2, h3])
  rcases rest2 with _ | ⟨a, rest3⟩
  · rw [removeFences]
    · rw [if_neg hne]
    · simp_all
  rcases rest3 with _ | ⟨b2, rest4⟩
  · rw [removeFences]
    · rw [if_neg hne]
    · simp_all
  rcases rest4 with _ | ⟨c2, rest5⟩
  · rw [removeFences]
    · rw [if_neg hne]
    · simp_all
  rcases rest5 with _ | ⟨d2, rest6⟩
  · rw [removeFences]
    · rw [if_neg hne]
    · simp_all
  · rw [removeFences, if_neg hne]

theorem hasFence_tail {c : Char} {cs : List Char} (h : hasFence (c :: cs) = false) :
    hasFence cs = false := by
  rcases cs with _ | ⟨x, _ | ⟨y, r⟩⟩
  · rfl
  · rfl
  · rw [hasFence] at h
    exact (Bool.or_eq_false_iff.mp h).2

theorem hasFence_not_triple {c x y : Char} {r : List Char}
    (h : hasFence (c :: x :: y :: r) = false) : ¬(c = btick ∧ x = btick ∧ y = btick) := by
  rintro ⟨h1, h2, h3⟩
  rw [hasFence] at h
  rw [h1, h2, h3] at h
  simp at h

theorem removeFences_closing (s : List Char) (h : hasFence s = false) :
    removeFences (s ++ '\n' :: btick :: btick :: btick :: []) = s ++ ['\n'] := by
  induction s with
  | nil => rfl
  | cons c cs ih =>
    have htail : hasFence cs = false := hasFence_tail h
    have hkeep : removeFences (c :: (cs ++ '\n' :: btick :: btick :: btick :: [])) =
        c :: removeFences (cs ++ '\n' :: btick :: btick :: btick :: []) := by
      apply removeFences_keep
      intro hcb htake
      rcases cs with _ | ⟨x, _ | ⟨y, r⟩⟩
      · have h' : ['\n', btick] = [btick, btick] := htake
        injection h' with h1 _
        exact absurd h1 (by decide)
      · have h' : [x, '\n'] = [btick, btick] := htake
        injection h' with _ h2
        injection h2 with h2 _
        exact absurd h2 (by decide)
      · have h' : [x, y] = [btick, btick] := htake
        injection h' with hx h2
        injection h2 with hy _
        exact hasFence_not_triple h ⟨hcb, hx, hy⟩
    show removeFences (c :: (cs ++ '\n' :: btick :: btick :: btick :: [])) = _
    rw [hkeep, ih htail]
    rfl

theorem removeFences_json_tag (rest : List Char) :
    removeFences (btick :: btick :: btick :: 'j' :: 's' :: 'o' :: 'n' :: rest) =
      removeFences rest := by
  rw [removeFences, if_pos ⟨rfl, rfl, rfl⟩, if_pos (by decide)]

theorem removeFences_newline (u : List Char) :
    removeFences (btick :: btick :: btick :: '\n' :: u) = removeFences ('\n' :: u) := by
  rcases u with _ | ⟨z, _ | ⟨w, _ | ⟨v, r⟩⟩⟩
  · rw [removeFences]
    · rw [if_pos ⟨rfl, rfl, rfl⟩]
    · simp_all
  · rw [removeFences]
    · rw [if_pos ⟨rfl, rfl, rfl⟩]
    · simp_all
  · rw [removeFences]
    · rw [if_pos ⟨rfl, rfl, rfl⟩]
    · simp_all
  · rw [removeFences, if_pos ⟨rfl, rfl, rfl⟩,
      if_neg (by simp [isTag4_ne '\n' z w v (by decide) (by decide)])]

theorem removeFences_wrap (tag : Bool) (s : List Char) (h : hasFence s = false) :
    removeFences (wrapFence tag s) = '\n' :: (s ++ ['\n']) := by
  have hkeep : removeFences ('\n' :: (s ++ '\n' :: btick :: btick :: btick :: [])) =
      '\n' :: removeFences (s ++ '\n' :: btick :: btick :: btick :: []) :=
    removeFences_keep _ _ (by intro hc; exact absurd hc (by decide))
  cases tag with
  | true =>
    show removeFences (btick :: btick :: btick :: 'j' :: 's' :: 'o' :: 'n' ::
      ('\n' :: (s ++ '\n' :: btick :: btick :: btick :: []))) = _
    rw [removeFences_json_tag, hkeep, removeFences_closing s h]
  | false =>
    show removeFences (btick :: btick :: btick :: '\n' ::
      (s ++ '\n' :: btick :: btick :: btick :: [])) = _
    rw [removeFences_newline, hkeep, removeFences_closing s h]

theorem stripFence_wrap (s : List Char)
    (hhead : s.head? = some lbrace) (hlast : s.getLast? = some rbrace) :
    stripFence ('\n' :: (s ++ ['\n'])) = s := by
  unfold stripFence
  rw [stripOn_cons_ws (by decide)]
  rw [stripOn_append_ws (by decide)]
  refine stripOn_eq_self (fun x hx => ?_) (fun x hx => ?_)
  · rw [hhead] at hx
    injection hx with h
    rw [← h]; decide
  · rw [hlast] at hx
    injection hx with h
    rw [← h]; decide

/-- Counterexample to C2 as stated: a valid record whose string content
itself contains a triple backtick.  The fence-removal regex deletes the
backticks inside the string as well, so the recovered record differs from
the wrapped one. -/
theorem extract_json_wrapped_counterexample :
    json_loads [lbrace, '"', 'a', '"', ':', ' ', '"', btick, btick, btick, '"', rbrace]
      = some (.vdict [(['a'], .vstr [btick, btick, btick])])
    ∧ extract_json_loose (wrapFence true
        [lbrace, '"', 'a', '"', ':', ' ', '"', btick, btick, btick, '"', rbrace])
      = .vdict [(['a'], .vstr [])]
    ∧ (PyVal.vdict [(['a'], PyVal.vstr [])]
        = PyVal.vdict [(['a'], PyVal.vstr [btick, btick, btick])] → False) := by
  refine ⟨rfl, rfl, ?_⟩
  intro h
  simp at h

/-- C2 as amended: for every valid JSON object text (trimmed, so it starts
with `{` and ends with `}`) that contains no triple-backtick run of its own,
wrapping it in a code fence — with or without the `json` tag — and running
`extract_json_loose` returns exactly the parsed record. -/
theorem extract_json_wrapped (tag : Bool) (s : List Char) (m : List (List Char × PyVal))
    (hparse : json_loads s = some (.vdict m))
    (hhead : s.head? = some lbrace)
    (hlast : s.getLast? = some rbrace)
    (hfence : hasFence s = false) :
    extract_json_loose (wrapFence tag s) = .vdict m := by
  have hne : wrapFence tag s ≠ [] := by cases tag <;> simp [wrapFence]
  unfold extract_json_loose
  rw [if_neg hne]
  simp only [removeFences_wrap tag s hfence, stripFence_wrap s hhead hlast, hparse]

/-- Witness for C2 at the record `{"a": 1}` wrapped in a tagged fence. -/
theorem extract_json_wrapped_witness :
    extract_json_loose (wrapFence true [lbrace, '"', 'a', '"', ':', ' ', '1', rbrace])
      = .vdict [(['a'], .vint 1)] :=
  extract_json_wrapped true _ _ (by rfl) (by rfl) (by rfl) (by rfl)

/-! ## C3: trailing-comma repair -/

theorem repairCommas_length_le (s : List Char) : (repairCommas s).length ≤ s.length := by
  induction s with
  | nil => simp [repairCommas]
  | cons c rest ih =>
    rw [repairCommas]
    split_ifs with h
    · exact le_trans ih (by simp)
    · simpa using ih

theorem repairCommas_cons_id {c : Char} {rest : List Char}
    (h : repairCommas (c :: rest) = c :: rest) :
    ¬(c = ',' ∧ closeAfterWs rest = true) ∧ repairCommas rest = rest := by
  rw [repairCommas] at h
  split_ifs at h with hcond
  · exfalso
    have hlen := congrArg List.length h
    have hle := repairCommas_length_le rest
    simp at hlen
    omega
  · refine ⟨hcond, ?_⟩
    injection h

theorem closeAfterWs_closer {cl : Char} (b' : List Char) (hcl : cl = rbrace ∨ cl = ']') :
    closeAfterWs (cl :: b') = true := by
  have hclws : isPyWs cl = false := by rcases hcl with h | h <;> rw [h] <;> decide
  have hstep : List.dropWhile isPyWs (cl :: b') = cl :: b' :=
    List.dropWhile_cons_of_neg (by simp [hclws])
  unfold closeAfterWs
  rw [hstep]
  rcases hcl with h | h <;> rw [h] <;> simp

theorem closeAfterWs_insert {u v : List Char}
    (h : closeAfterWs (u ++ ',' :: v) = true) : closeAfterWs (u ++ v) = true := by
  unfold closeAfterWs at h ⊢
  rw [List.dropWhile_append] at h ⊢
  by_cases he : (u.dropWhile isPyWs).isEmpty
  · rw [if_pos he] at h
    have hstep : List.dropWhile isPyWs (',' :: v) = ',' :: v :=
      List.dropWhile_cons_of_neg (by decide)
    rw [hstep] at h
    have h' : (decide (',' = rbrace) || decide (',' = ']')) = true := h
    exact absurd h' (by decide)
  · rw [if_neg he] at h ⊢
    rcases hd : u.dropWhile isPyWs with _ | ⟨d0, ds⟩
    · rw [hd] at he; simp at he
    · rw [hd] at h
      exact h

theorem repairCommas_insert (a b' : List Char) (cl : Char)
    (hcl : cl = rbrace ∨ cl = ']')
    (hid : repairCommas (a ++ cl :: b') = a ++ cl :: b') :
    repairCommas (a ++ ',' :: cl :: b') = a ++ cl :: b' := by
  induction a with
  | nil =>
    show repairCommas (',' :: cl :: b') = cl :: b'
    rw [repairCommas, if_pos ⟨rfl, closeAfterWs_closer b' hcl⟩]
    exact hid
  | cons x a' ih =>
    obtain ⟨hncond, hrest⟩ := repairCommas_cons_id hid
    have ih' := ih hrest
    show repairCommas (x :: (a' ++ ',' :: cl :: b')) = x :: (a' ++ cl :: b')
    rw [repairCommas, if_neg ?hcnd]
    · rw [ih']
    case hcnd =>
      rintro ⟨hx, hcaw⟩
      exact hncond ⟨hx, closeAfterWs_insert hcaw⟩

theorem removeFences_id (s : List Char) (h : hasFence s = false) : removeFences s = s := by
  induction s with
  | nil => rfl
  | cons c cs ih =>
    rw [removeFences_keep c cs ?hk, ih (hasFence_tail h)]
    case hk =>
      intro hcb htake
      rcases cs with _ | ⟨x, _ | ⟨y, r⟩⟩
      · simp at htake
      · have h' : [x] = [btick, btick] := htake
        simp at h'
      · have h' : [x, y] = [btick, btick] := htake
        injection h' with hx h2
        injection h2 with hy _
        exact hasFence_not_triple h ⟨hcb, hx, hy⟩

theorem findBraceSpan_whole (s : List Char)
    (hhead : s.head? = some lbrace) (hlast : s.getLast? = some rbrace)
    (hlen : 2 ≤ s.length) : findBraceSpan s = some s := by
  rcases s with _ | ⟨c0, t⟩
  · simp at hhead
  have hc0 : c0 = lbrace := Option.some.inj hhead
  rcases hr : (c0 :: t).reverse with _ | ⟨e, u⟩
  · exact absurd (congrArg List.length hr) (by simp)
  have he : e = rbrace := by
    have h1 : (c0 :: t).reverse.head? = some rbrace := by
      rw [List.head?_reverse]; exact hlast
    rw [hr] at h1
    exact Option.some.inj h1
  have hf1 : (c0 :: t).findIdx? (fun c => c = lbrace) = some 0 := by
    subst hc0
    rw [List.findIdx?_cons]
    simp
  have hf2 : (c0 :: t).reverse.findIdx? (fun c => c = rbrace) = some 0 := by
    subst he
    rw [hr, List.findIdx?_cons]
    simp
  unfold findBraceSpan
  rw [hf1, hf2]
  show (if 0 < (c0 :: t).length - 1 - 0 then
      some (List.take ((c0 :: t).length - 1 - 0 - 0 + 1) (List.drop 0 (c0 :: t))) else none)
    = some (c0 :: t)
  rw [if_pos (by simp only [List.length_cons] at hlen ⊢; omega)]
  rw [List.drop_zero]
  rw [show (c0 :: t).length - 1 - 0 - 0 + 1 = (c0 :: t).length from
    by simp only [List.length_cons]; omega]
  rw [List.take_length]

/-- Counterexample to C3 as stated: injecting the comma immediately before a
closing bracket that lies inside a string literal produces a different valid
record, so `recover` returns a record that is not equivalent to the original
one.  Here `(\x7b"k": "]"\x7d)` becomes `(\x7b"k": ",]"\x7d)` by inserting
`,` before the `]` at index 7. -/
theorem extract_json_trailing_comma_counterexample :
    ([lbrace, '"', 'k', '"', ':', ' ', '"', ']', '"', rbrace].take 7) ++ ',' ::
        ([lbrace, '"', 'k', '"', ':', ' ', '"', ']', '"', rbrace].drop 7)
      = [lbrace, '"', 'k', '"', ':', ' ', '"', ',', ']', '"', rbrace]
    ∧ [lbrace, '"', 'k', '"', ':', ' ', '"', ']', '"', rbrace][7]? = some ']'
    ∧ json_loads [lbrace, '"', 'k', '"', ':', ' ', '"', ']', '"', rbrace]
      = some (.vdict [(['k'], .vstr [']'])])
    ∧ extract_json_loose [lbrace, '"', 'k', '"', ':', ' ', '"', ',', ']', '"', rbrace]
      = .vdict [(['k'], .vstr [',', ']'])]
    ∧ (PyVal.vdict [(['k'], PyVal.vstr [',', ']'])]
        = PyVal.vdict [(['k'], PyVal.vstr [']'])] → False) := by
  refine ⟨rfl, rfl, rfl, rfl, ?_⟩
  intro h
  simp at h

/-- C3 as amended: for a valid JSON object text (trimmed, fence-free) that
the trailing-comma repair leaves unchanged, injecting one comma immediately
before a structural closing brace or bracket — i.e. at a position where the
resulting text is no longer valid JSON — makes `extract_json_loose` recover
exactly the record parsed from the original text: the direct parse fails,
the greedy brace span is the whole text, the repair deletes exactly the
injected comma, and the reparse succeeds. -/
theorem extract_json_trailing_comma
    (a b' : List Char) (cl : Char) (v : PyVal)
    (hcl : cl = rbrace ∨ cl = ']')
    (hparse : json_loads (a ++ cl :: b') = some v)
    (hhead : (a ++ cl :: b').head? = some lbrace)
    (hlast : (a ++ cl :: b').getLast? = some rbrace)
    (hfence : hasFence (a ++ ',' :: cl :: b') = false)
    (hrep : repairCommas (a ++ cl :: b') = a ++ cl :: b')
    (hfail : json_loads (a ++ ',' :: cl :: b') = none) :
    extract_json_loose (a ++ ',' :: cl :: b') = v := by
  have hheadI : (a ++ ',' :: cl :: b').head? = some lbrace := by
    rcases a with _ | ⟨a0, as⟩
    · exfalso
      have : cl = lbrace := by
        simpa using hhead
      rcases hcl with h | h <;> rw [h] at this <;> exact absurd this (by decide)
    · simpa using hhead
  have hlastI : (a ++ ',' :: cl :: b').getLast? = some rbrace := by
    rw [List.getLast?_append] at hlast ⊢
    rw [List.getLast?_cons_cons]
    exact hlast
  have hlenI : 2 ≤ (a ++ ',' :: cl :: b').length := by
    simp
    omega
  have hneI : a ++ ',' :: cl :: b' ≠ [] := by simp
  have hrf : removeFences (a ++ ',' :: cl :: b') = a ++ ',' :: cl :: b' :=
    removeFences_id _ hfence
  have hsf : stripFence (a ++ ',' :: cl :: b') = a ++ ',' :: cl :: b' := by
    refine stripOn_eq_self (fun x hx => ?_) (fun x hx => ?_)
    · rw [hheadI] at hx
      injection hx with h
      rw [← h]; decide
    · rw [hlastI] at hx
      injection hx with h
      rw [← h]; decide
  have hfb : findBraceSpan (a ++ ',' :: cl :: b') = some (a ++ ',' :: cl :: b') :=
    findBraceSpan_whole _ hheadI hlastI hlenI
  have hrc : repairCommas (a ++ ',' :: cl :: b') = a ++ cl :: b' :=
    repairCommas_insert a b' cl hcl hrep
  unfold extract_json_loose
  rw [if_neg hneI]
  simp only [hrf, hsf, hfail, hfb, hrc, hparse]

/-- Witness for C3: the record `(\x7b"a": 1\x7d)` with a comma injected before
its closing brace is still recovered as that record. -/
theorem extract_json_trailing_comma_witness :
    extract_json_loose ([lbrace, '"', 'a', '"', ':', ' ', '1'] ++ ',' :: rbrace :: [])
      = .vdict [(['a'], .vint 1)] :=
  extract_json_trailing_comma [lbrace, '"', 'a', '"', ':', ' ', '1'] [] rbrace _
    (Or.inl rfl) (by rfl) (by rfl) (by rfl) (by rfl) (by rfl) (by rfl)

/-! ## Heading-scan lemmas for the scene splitter -/

theorem startsL_first {p c : Char} {ps cs : List Char}
    (h : startsL (p :: ps) (c :: cs) = true) : p = c := by
  rw [startsL] at h
  exact of_decide_eq_true (Bool.and_eq_true_iff.mp h).1

theorem startsL_append {m s : List Char} (t : List Char) (h : startsL m s = true) :
    startsL m (s ++ t) = true := by
  induction m generalizing s with
  | nil => rfl
  | cons p ps ih =>
    rcases s with _ | ⟨c, cs⟩
    · exact absurd h (by simp [startsL])
    · rw [List.cons_append, startsL]
      rw [startsL] at h
      rcases Bool.and_eq_true_iff.mp h with ⟨h1, h2⟩
      exact Bool.and_eq_true_iff.mpr ⟨h1, ih h2⟩

theorem startsL_split {m : List Char} (hnl : ∀ x ∈ m, x ≠ '\n') :
    ∀ {rem : List Char} (v : List Char), rem ≠ [] → rem.getLast? = some '\n' →
      startsL m (rem ++ v) = true → startsL m rem = true := by
  induction m with
  | nil => intro rem v _ _ _; rfl
  | cons p ps ih =>
    intro rem v hne hlast h
    rcases rem with _ | ⟨c, cs⟩
    · exact absurd rfl hne
    rcases cs with _ | ⟨c2, cs2⟩
    · exfalso
      have hc : c = '\n' := Option.some.inj hlast
      rw [List.cons_append] at h
      have hp : p = c := startsL_first h
      exact hnl p (by simp) (hp.trans hc)
    · rw [List.cons_append] at h
      have hp : p = c := startsL_first h
      rw [startsL] at h
      rcases Bool.and_eq_true_iff.mp h with ⟨h1, h2⟩
      have h3 := ih (fun x hx => hnl x (by simp [hx])) v (by simp)
        (by rw [← List.getLast?_cons_cons]; exact hlast) h2
      rw [startsL]
      exact Bool.and_eq_true_iff.mpr ⟨h1, h3⟩

theorem headingHere_append {s : List Char} (t : List Char)
    (h : headingHere s = true) : headingHere (s ++ t) = true := by
  unfold headingHere at h ⊢
  simp only [Bool.or_eq_true] at h ⊢
  rcases h with ((h | h) | h) | h
  · exact Or.inl (Or.inl (Or.inl (startsL_append t h)))
  · exact Or.inl (Or.inl (Or.inr (startsL_append t h)))
  · exact Or.inl (Or.inr (startsL_append t h))
  · exact Or.inr (startsL_append t h)

theorem headingHere_chunk {rem : List Char} (v : List Char) (hne : rem ≠ [])
    (hlast : rem.getLast? = some '\n') (h : headingHere rem = false) :
    headingHere (rem ++ v) = false := by
  by_contra hcon
  have htrue : headingHere (rem ++ v) = true := by
    cases hv : headingHere (rem ++ v)
    · exact absurd hv hcon
    · rfl
  unfold headingHere at htrue h
  simp only [Bool.or_eq_true] at htrue
  have hfalse := h
  rcases htrue with ((h1 | h1) | h1) | h1
  · rw [startsL_split (by decide) v hne hlast h1] at hfalse; simp at hfalse
  · rw [startsL_split (by decide) v hne hlast h1] at hfalse; simp at hfalse
  · rw [startsL_split (by decide) v hne hlast h1] at hfalse; simp at hfalse
  · rw [startsL_split (by decide) v hne hlast h1] at hfalse; simp at hfalse

theorem headingHere_head {c : Char} {cs : List Char}
    (h : headingHere (c :: cs) = true) : c = 'I' ∨ c = 'E' := by
  unfold headingHere at h
  simp only [Bool.or_eq_true] at h
  rcases h with ((h | h) | h) | h
  · exact Or.inl (startsL_first h).symm
  · exact Or.inr (startsL_first h).symm
  · exact Or.inl (startsL_first h).symm
  · exact Or.inl (startsL_first h).symm

theorem noHeadB_tail {b : Bool} {c : Char} {r : List Char}
    (h : noHeadB b (c :: r) = true) : noHeadB (c = '\n') r = true := by
  rw [noHeadB] at h
  exact (Bool.and_eq_true_iff.mp h).2

theorem noHeadB_not_heading {c : Char} {r : List Char}
    (h : noHeadB true (c :: r) = true) : headingHere (c :: r) = false := by
  rw [noHeadB] at h
  have h1 := (Bool.and_eq_true_iff.mp h).1
  cases hh : headingHere (c :: r)
  · rfl
  · rw [hh] at h1; simp at h1

theorem noHeadB_mono {b : Bool} {u : List Char} (h : noHeadB b u = true) :
    noHeadB false u = true := by
  rcases u with _ | ⟨c, r⟩
  · rfl
  · rw [noHeadB]
    simp only [Bool.false_and, Bool.not_false, Bool.true_and]
    exact noHeadB_tail h

theorem endsLS_cons (b : Bool) (c : Char) (r : List Char) :
    endsLS b (c :: r) = endsLS (c = '\n') r := by
  rcases r with _ | ⟨c2, r2⟩
  · rfl
  · unfold endsLS
    rw [List.getLast?_cons_cons]
    rcases h : (c2 :: r2).getLast? with _ | x
    · simp at h
    · rfl

theorem noHeadB_append_left {y : List Char} :
    ∀ (x : List Char) (b : Bool), noHeadB b (x ++ y) = true → noHeadB b x = true := by
  intro x
  induction x with
  | nil => intro b _; rfl
  | cons c r ih =>
    intro b h
    rw [List.cons_append, noHeadB] at h
    rcases Bool.and_eq_true_iff.mp h with ⟨h1, h2⟩
    rw [noHeadB]
    refine Bool.and_eq_true_iff.mpr ⟨?_, ih (c = '\n') h2⟩
    cases hb : b
    · simp
    · simp only [Bool.true_and]
      cases hh : headingHere (c :: r)
      · simp
      · exfalso
        have happ := headingHere_append y hh
        rw [List.cons_append] at happ
        rw [hb] at h1
        simp only [Bool.true_and] at h1
        rw [happ] at h1
        simp at h1

theorem noHeadB_append_right {y : List Char} :
    ∀ (x : List Char) (b : Bool), noHeadB b (x ++ y) = true → noHeadB (endsLS b x) y = true := by
  intro x
  induction x with
  | nil => intro b h; exact h
  | cons c r ih =>
    intro b h
    rw [List.cons_append] at h
    rw [endsLS_cons]
    exact ih (c = '\n') (noHeadB_tail h)

theorem splitGo_chunk :
    ∀ (u : List Char) (b : Bool) (v acc : List Char),
      noHeadB b u = true → (v = [] ∨ u = [] ∨ u.getLast? = some '\n') →
      splitGo b (u ++ v) acc = splitGo (endsLS b u) v (u.reverse ++ acc) := by
  intro u
  induction u with
  | nil => intro b v acc _ _; rfl
  | cons c r ih =>
    intro b v acc hnh hv
    have h2 := noHeadB_tail hnh
    have hns : ¬(b = true ∧ headingHere (c :: (r ++ v)) = true) := by
      rintro ⟨hb, hhead⟩
      rw [hb] at hnh
      have hfalse : headingHere (c :: r) = false := noHeadB_not_heading hnh
      rcases hv with h | h | h
      · rw [h, List.append_nil] at hhead
        rw [hhead] at hfalse
        simp at hfalse
      · simp at h
      · have := headingHere_chunk v (by simp) h hfalse
        rw [List.cons_append] at this
        rw [hhead] at this
        simp at this
    rw [List.cons_append, splitGo, if_neg hns]
    have hv' : v = [] ∨ r = [] ∨ r.getLast? = some '\n' := by
      rcases hv with h | h | h
      · exact Or.inl h
      · simp at h
      · rcases r with _ | ⟨c2, r2⟩
        · exact Or.inr (Or.inl rfl)
        · rw [List.getLast?_cons_cons] at h
          exact Or.inr (Or.inr h)
    rw [ih (c = '\n') v (c :: acc) h2 hv']
    have hacc : (c :: r).reverse ++ acc = r.reverse ++ (c :: acc) := by
      rw [List.reverse_cons, List.append_assoc]
      rfl
    rw [endsLS_cons, hacc]

theorem splitGo_done (u : List Char) (b : Bool) (acc : List Char)
    (h : noHeadB b u = true) : splitGo b u acc = [acc.reverse ++ u] := by
  have hc := splitGo_chunk u b [] acc h (Or.inl rfl)
  rw [List.append_nil] at hc
  rw [hc]
  show [(u.reverse ++ acc).reverse] = _
  simp

theorem splitGo_length (t : List Char) :
    ∀ (b : Bool) (acc : List Char), (splitGo b t acc).length = countHeads b t + 1 := by
  induction t with
  | nil => intro b acc; rfl
  | cons c r ih =>
    intro b acc
    rw [splitGo, countHeads]
    split_ifs with h
    · rw [List.length_cons, ih]
      omega
    · rw [ih]
      omega

theorem splitGo_segments :
    ∀ (ss : List (List Char)), ss ≠ [] →
      (∀ seg ∈ ss, headingHere seg = true ∧ noHeadB false seg.tail = true) →
      (∀ seg ∈ ss.dropLast, seg.getLast? = some '\n') →
      ∀ acc : List Char, splitGo true (ss.flatten) acc = acc.reverse :: ss := by
  intro ss
  induction ss with
  | nil => intro h; exact absurd rfl h
  | cons seg ss' ih =>
    intro _ hseg hnl acc
    obtain ⟨hh, hnt⟩ := hseg seg (by simp)
    rcases seg with _ | ⟨c, cs⟩
    · exact absurd hh (by decide)
    have hnt' : noHeadB false cs = true := hnt
    have hcb : (decide (c = '\n')) = false := by
      rcases headingHere_head hh with h | h <;> rw [h] <;> decide
    have hfire : headingHere (c :: (cs ++ ss'.flatten)) = true := by
      have := headingHere_append (ss'.flatten) hh
      rw [List.cons_append] at this
      exact this
    rw [List.flatten_cons, List.cons_append, splitGo, if_pos ⟨rfl, hfire⟩]
    congr 1
    cases ss' with
    | nil =>
      rw [List.flatten_nil, List.append_nil, hcb, splitGo_done cs false [c] hnt']
      rfl
    | cons seg2 ss'' =>
      have hlastseg : (c :: cs).getLast? = some '\n' := by
        apply hnl
        rw [List.dropLast_cons₂]
        simp
      have hcsne : cs ≠ [] := by
        intro h0
        rw [h0] at hlastseg
        have hc : c = '\n' := Option.some.inj hlastseg
        rw [hc] at hcb
        simp at hcb
      have hcslast : cs.getLast? = some '\n' := by
        rcases cs with _ | ⟨c2, cs2⟩
        · exact absurd rfl hcsne
        · rw [List.getLast?_cons_cons] at hlastseg
          exact hlastseg
      rw [hcb, splitGo_chunk cs false ((seg2 :: ss'').flatten) [c] hnt'
        (Or.inr (Or.inr hcslast))]
      have hend : endsLS false cs = true := by
        unfold endsLS
        rw [hcslast]
        simp
      rw [hend]
      rw [ih (by simp) (fun g hg => hseg g (by simp [hg]))
        (fun g hg => hnl g (by rw [List.dropLast_cons₂]; simp [hg])) (cs.reverse ++ [c])]
      congr 1
      simp

/-! ## Line-ending normalization lemmas -/

theorem replCRLF_no_cr : ∀ (s : List Char), '\r' ∉ s → replCRLF s = s := by
  intro s
  induction s using replCRLF.induct with
  | case1 c c2 rest2 hcond ih =>
    intro hmem
    exfalso
    exact hmem (by rw [hcond.1]; exact List.mem_cons_self _ _)
  | case2 c c2 rest2 hcond ih =>
    intro hmem
    rw [replCRLF, if_neg hcond, ih (fun hm => hmem (List.mem_cons_of_mem c hm))]
  | case3 c => intro _; rfl
  | case4 => intro _; rfl

theorem mem_replCRLF : ∀ (s : List Char) (c0 : Char), c0 ∈ s → c0 ≠ '\r' → c0 ∈ replCRLF s := by
  intro s
  induction s using replCRLF.induct with
  | case1 c c2 rest2 hcond ih =>
    intro c0 hmem hne
    rw [replCRLF, if_pos hcond]
    rcases List.mem_cons.mp hmem with h0 | hmem1
    · exact absurd (h0.trans hcond.1) hne
    rcases List.mem_cons.mp hmem1 with h0 | hmem2
    · rw [h0, hcond.2]
      exact List.mem_cons_self _ _
    · exact List.mem_cons_of_mem _ (ih c0 hmem2 hne)
  | case2 c c2 rest2 hcond ih =>
    intro c0 hmem hne
    rw [replCRLF, if_neg hcond]
    rcases List.mem_cons.mp hmem with h0 | hmem1
    · rw [h0]
      exact List.mem_cons_self _ _
    · exact List.mem_cons_of_mem _ (ih c0 hmem1 hne)
  | case3 c => intro c0 h _; exact h
  | case4 => intro c0 h _; exact h

theorem normalizeNewlines_no_cr (s : List Char) : '\r' ∉ normalizeNewlines s := by
  intro h
  unfold normalizeNewlines at h
  rcases List.mem_map.mp h with ⟨x, _, hfx⟩
  by_cases hxr : x = '\r'
  · rw [if_pos hxr] at hfx
    exact absurd hfx (by decide)
  · rw [if_neg hxr] at hfx
    exact hxr hfx

theorem normalizeNewlines_id (u : List Char) (h : '\r' ∉ u) : normalizeNewlines u = u := by
  unfold normalizeNewlines
  rw [replCRLF_no_cr u h]
  rw [List.map_congr_left (fun x hx => if_neg (fun he : x = '\r' => h (he ▸ hx)))]
  exact List.map_id' u

theorem mem_normalizeNewlines {c : Char} {s : List Char} (hc : c ∈ s)
    (hws : isPyWs c = false) : c ∈ normalizeNewlines s := by
  have hcr : c ≠ '\r' := by
    intro h
    rw [h] at hws
    exact absurd hws (by decide)
  have h1 : c ∈ replCRLF s := mem_replCRLF s c hc hcr
  unfold normalizeNewlines
  have h2 : (if c = '\r' then '\n' else c) = c := if_neg hcr
  rw [← h2]
  exact List.mem_map_of_mem _ h1

/-! ## C1: heading counts -/

/-- Counterexample to C1 as stated: a document with two well-formed heading
lines whose heading-delimited parts are both shorter than 60 characters;
every part is discarded and the fallback produces a single scene, so the
result has neither 2 nor 3 segments. -/
theorem scene_splitter_headings_counterexample :
    countHeads true (normalizeNewlines ("INT. A - DAY\nhi\nEXT. B - NIGHT\nbye".toList)) = 2
    ∧ (scene_splitter ("INT. A - DAY\nhi\nEXT. B - NIGHT\nbye".toList)).length = 1
    ∧ ¬((scene_splitter ("INT. A - DAY\nhi\nEXT. B - NIGHT\nbye".toList)).length = 2
        ∨ (scene_splitter ("INT. A - DAY\nhi\nEXT. B - NIGHT\nbye".toList)).length = 3) := by
  refine ⟨by decide, by decide, by decide⟩

/-- C1 as amended: write the normalized document as a headingless prefix
followed by `N` heading-delimited segments (each segment starts at a line
start with a heading marker and contains no further heading boundary).  When
each segment is at least 60 characters after trimming, `scene_splitter`
returns exactly those `N` trimmed segments in document order, preceded by
the trimmed prefix when that also meets the 60-character minimum — `N`
segments, or `N + 1` with qualifying leading text.  Without the per-segment
minimum the claim fails (see the counterexample). -/
theorem scene_splitter_headings (s pre : List Char) (ss : List (List Char))
    (hdec : normalizeNewlines s = pre ++ ss.flatten)
    (hne : ss ≠ [])
    (hpre : noHeadB true pre = true)
    (hpreNL : pre = [] ∨ pre.getLast? = some '\n')
    (hseg : ∀ seg ∈ ss, headingHere seg = true ∧ noHeadB false seg.tail = true)
    (hnl : ∀ seg ∈ ss.dropLast, seg.getLast? = some '\n')
    (hlen : ∀ seg ∈ ss, 60 ≤ (stripWS seg).length)
    (hg : 30 ≤ (stripWS s).length) :
    countHeads true (normalizeNewlines s) = ss.length
    ∧ scene_splitter s =
        (if 60 ≤ (stripWS pre).length then [stripWS pre] else []) ++ ss.map stripWS
    ∧ (scene_splitter s).length =
        ss.length + (if 60 ≤ (stripWS pre).length then 1 else 0) := by
  have hsne : s ≠ [] := by
    intro h0
    rw [h0] at hg
    exact absurd hg (by decide)
  have hpreEnd : endsLS true pre = true := by
    rcases hpreNL with h | h
    · rw [h]; rfl
    · unfold endsLS; rw [h]; simp
  have hsplit : splitSc (normalizeNewlines s) = pre :: ss := by
    unfold splitSc
    rw [hdec, splitGo_chunk pre true (ss.flatten) [] hpre ?hv]
    · rw [hpreEnd, List.append_nil, splitGo_segments ss hne hseg hnl pre.reverse,
        List.reverse_reverse]
    case hv =>
      rcases hpreNL with h | h
      · exact Or.inr (Or.inl h)
      · exact Or.inr (Or.inr h)
  have hcount : countHeads true (normalizeNewlines s) = ss.length := by
    have h1 := splitGo_length (normalizeNewlines s) true []
    have h2 : splitGo true (normalizeNewlines s) [] = pre :: ss := hsplit
    rw [h2] at h1
    simp at h1
    omega
  have heq : scene_splitter s =
      (if 60 ≤ (stripWS pre).length then [stripWS pre] else []) ++ ss.map stripWS := by
    simp only [scene_splitter]
    rw [if_neg ?hgrd]
    case hgrd =>
      rintro (h | h)
      · exact hsne h
      · omega
    rw [hsplit, List.map_cons, List.filter_cons]
    have hfss : (ss.map stripWS).filter (fun p => 60 ≤ p.length) = ss.map stripWS := by
      rw [List.filter_eq_self]
      intro a ha
      rcases List.mem_map.mp ha with ⟨seg, hg1, rfl⟩
      exact decide_eq_true (hlen seg hg1)
    by_cases hp : 60 ≤ (stripWS pre).length
    · rw [if_pos (decide_eq_true hp), hfss, if_neg (by simp), if_pos hp]
      rfl
    · rw [if_neg (fun hd => hp (of_decide_eq_true hd)), hfss,
        if_neg (by simpa using hne), if_neg hp]
      rfl
  refine ⟨hcount, heq, ?_⟩
  rw [heq]
  by_cases hp : 60 ≤ (stripWS pre).length
  · rw [if_pos hp, if_pos hp]
    simp
  · rw [if_neg hp, if_neg hp]
    simp

/-- Witness for C1's amended statement: a two-scene script whose segments
both exceed 60 characters; the splitter returns exactly 2 scenes and the
document has 2 heading lines. -/
theorem scene_splitter_headings_witness :
    countHeads true (normalizeNewlines sampleScript) = 2
    ∧ (scene_splitter sampleScript).length = 2 := by
  have h := scene_splitter_headings sampleScript [] [sampleSceneA, sampleSceneB]
    (by decide) (by decide) (by decide) (Or.inl rfl)
    (by
      intro seg hs
      rcases List.mem_cons.mp hs with rfl | hs2
      · exact ⟨by decide, by decide⟩
      rcases List.mem_cons.mp hs2 with rfl | hs3
      · exact ⟨by decide, by decide⟩
      · simp at hs3)
    (by
      intro seg hs
      rcases List.mem_cons.mp hs with rfl | hs2
      · decide
      · simp at hs2)
    (by
      intro seg hs
      rcases List.mem_cons.mp hs with rfl | hs2
      · decide
      rcases List.mem_cons.mp hs2 with rfl | hs3
      · decide
      · simp at hs3)
    (by decide)
  rcases h with ⟨h1, _, h3⟩
  refine ⟨h1, ?_⟩
  rw [h3]
  decide

/-! ## C6: zero headings and idempotence -/

theorem splitSc_noHead (u : List Char) (h : noHeadB false u = true) :
    splitSc u = [u] ∨ splitSc u = [[], u] := by
  rcases u with _ | ⟨c, r⟩
  · left; rfl
  have h2 : noHeadB (c = '\n') r = true := noHeadB_tail h
  by_cases hh : headingHere (c :: r) = true
  · right
    unfold splitSc
    rw [splitGo, if_pos ⟨rfl, hh⟩, splitGo_done r (c = '\n') [c] h2]
    rfl
  · left
    unfold splitSc
    rw [splitGo, if_neg (fun hhp => hh hhp.2), splitGo_done r (c = '\n') [c] h2]
    rfl

/-- C6: on a non-trivial document whose normalized text contains zero
heading lines, `scene_splitter` returns the single trimmed (normalized)
document, and applying `scene_splitter` to that single segment returns it
again: re-segmentation splits nothing further (trimming can expose a
heading at position 0, but a heading at the very start only contributes an
empty leading part, which is discarded). -/
theorem scene_splitter_idempotent_no_headings (s : List Char)
    (hg : 30 ≤ (stripWS s).length)
    (hgn : 30 ≤ (stripWS (normalizeNewlines s)).length)
    (hnh : noHeadB true (normalizeNewlines s) = true) :
    scene_splitter s = [stripWS (normalizeNewlines s)]
    ∧ scene_splitter (stripWS (normalizeNewlines s)) = [stripWS (normalizeNewlines s)] := by
  have hsne : s ≠ [] := by
    intro h0
    rw [h0] at hg
    exact absurd hg (by decide)
  have hidem : stripWS (stripWS (normalizeNewlines s)) = stripWS (normalizeNewlines s) :=
    stripOn_idem _ _
  have hsplit : splitSc (normalizeNewlines s) = [normalizeNewlines s] := by
    unfold splitSc
    rw [splitGo_done _ true [] hnh]
    rfl
  have part1 : scene_splitter s = [stripWS (normalizeNewlines s)] := by
    simp only [scene_splitter]
    rw [if_neg ?hgrd]
    case hgrd =>
      rintro (h | h)
      · exact hsne h
      · omega
    rw [hsplit, List.map_cons, List.map_nil, List.filter_cons]
    by_cases hp : 60 ≤ (stripWS (normalizeNewlines s)).length
    · rw [if_pos (decide_eq_true hp), List.filter_nil, if_neg (by simp)]
    · rw [if_neg (fun hd => hp (of_decide_eq_true hd)), List.filter_nil, if_pos rfl]
  refine ⟨part1, ?_⟩
  have hnoCR : ∀ x ∈ stripWS (normalizeNewlines s), x ≠ '\r' := by
    intro x hx hxr
    have hmem : x ∈ normalizeNewlines s := (stripOn_sublist isPyWs _).subset hx
    rw [hxr] at hmem
    exact normalizeNewlines_no_cr s hmem
  have hnormu : normalizeNewlines (stripWS (normalizeNewlines s))
      = stripWS (normalizeNewlines s) :=
    normalizeNewlines_id _ (fun h => (hnoCR '\r' h) rfl)
  obtain ⟨w1, w2, hdec2, hw1, hw2⟩ := stripOn_decomp isPyWs (normalizeNewlines s)
  have hdec2' : normalizeNewlines s = w1 ++ stripWS (normalizeNewlines s) ++ w2 := hdec2
  have hnh2 : noHeadB false (stripWS (normalizeNewlines s)) = true := by
    have h1 : noHeadB true (w1 ++ (stripWS (normalizeNewlines s) ++ w2)) = true := by
      rw [← List.append_assoc, ← hdec2']
      exact hnh
    have h2 := noHeadB_append_right w1 true h1
    have h3 := noHeadB_append_left _ _ h2
    exact noHeadB_mono h3
  simp only [scene_splitter]
  rw [if_neg ?hg2]
  case hg2 =>
    rintro (h | h)
    · rw [h] at hgn
      exact absurd hgn (by decide)
    · rw [hidem] at h
      omega
  rw [hnormu]
  rcases splitSc_noHead _ hnh2 with hsp | hsp
  · rw [hsp, List.map_cons, List.map_nil, hidem, List.filter_cons]
    by_cases hp : 60 ≤ (stripWS (normalizeNewlines s)).length
    · rw [if_pos (decide_eq_true hp), List.filter_nil, if_neg (by simp)]
    · rw [if_neg (fun hd => hp (of_decide_eq_true hd)), List.filter_nil, if_pos rfl]
  · have hnil : stripWS ([] : List Char) = [] := rfl
    rw [hsp, List.map_cons, List.map_cons, List.map_nil, hidem, hnil, List.filter_cons]
    have hcnd : ¬(decide (60 ≤ ([] : List Char).length) = true) := by decide
    rw [if_neg hcnd, List.filter_cons]
    by_cases hp : 60 ≤ (stripWS (normalizeNewlines s)).length
    · rw [if_pos (decide_eq_true hp), List.filter_nil, if_neg (by simp)]
    · rw [if_neg (fun hd => hp (of_decide_eq_true hd)), List.filter_nil, if_pos rfl]

/-- Witness for C6 at a headingless 40-character document. -/
theorem scene_splitter_idempotent_witness :
    scene_splitter ("The quick brown fox jumps over a lazy dog".toList)
      = [stripWS (normalizeNewlines ("The quick brown fox jumps over a lazy dog".toList))]
    ∧ scene_splitter
        (stripWS (normalizeNewlines ("The quick brown fox jumps over a lazy dog".toList)))
      = [stripWS (normalizeNewlines ("The quick brown fox jumps over a lazy dog".toList))] :=
  scene_splitter_idempotent_no_headings _ (by decide) (by decide) (by decide)

/-! ## C10: non-empty trimmed output -/

/-- C10: on any document whose stripped text reaches the 30-character
guard, `scene_splitter` returns a non-empty list; when every split part is
shorter than the 60-character minimum after trimming (so the filter leaves
nothing), the result falls back to the whole trimmed normalized document;
and every returned scene is a non-empty, whitespace-trimmed string. -/
theorem scene_splitter_nonempty_trimmed (s : List Char)
    (hg : 30 ≤ (stripWS s).length) :
    scene_splitter s ≠ []
    ∧ (((splitSc (normalizeNewlines s)).map stripWS).filter (fun p => 60 ≤ p.length) = [] →
        scene_splitter s = [stripWS (normalizeNewlines s)])
    ∧ (∀ sc ∈ scene_splitter s, sc ≠ [] ∧ stripWS sc = sc) := by
  have hsne : s ≠ [] := by
    intro h0
    rw [h0] at hg
    exact absurd hg (by decide)
  have htne : stripWS (normalizeNewlines s) ≠ [] := by
    have hne0 : stripWS s ≠ [] := by
      intro h
      rw [h] at hg
      exact absurd hg (by decide)
    rcases hh : (stripWS s).head? with _ | x
    · rw [List.head?_eq_none_iff] at hh
      exact absurd hh hne0
    · have hxw : isPyWs x = false := stripOn_head_ne hh
      have hxs : x ∈ s := by
        rcases List.head?_eq_some_iff.mp hh with ⟨ys, hys⟩
        exact (stripOn_sublist isPyWs s).subset
          (show x ∈ stripWS s by rw [hys]; exact List.mem_cons_self _ _)
      have hxn : x ∈ normalizeNewlines s := mem_normalizeNewlines hxs hxw
      exact stripOn_ne_nil hxn hxw
  have hcase : (((splitSc (normalizeNewlines s)).map stripWS).filter
        (fun p => 60 ≤ p.length) ≠ [] ∧
        scene_splitter s = ((splitSc (normalizeNewlines s)).map stripWS).filter
          (fun p => 60 ≤ p.length))
      ∨ (((splitSc (normalizeNewlines s)).map stripWS).filter (fun p => 60 ≤ p.length) = []
        ∧ scene_splitter s = [stripWS (normalizeNewlines s)]) := by
    simp only [scene_splitter]
    rw [if_neg ?hgrd]
    case hgrd =>
      rintro (h | h)
      · exact hsne h
      · omega
    split_ifs with h
    · exact Or.inr ⟨h, rfl⟩
    · exact Or.inl ⟨h, rfl⟩
  refine ⟨?_, ?_, ?_⟩
  · rcases hcase with ⟨hne', heq⟩ | ⟨_, heq⟩
    · rw [heq]; exact hne'
    · rw [heq]; simp
  · intro hf
    rcases hcase with ⟨hne', _⟩ | ⟨_, heq⟩
    · exact absurd hf hne'
    · exact heq
  · intro sc hsc
    rcases hcase with ⟨_, heq⟩ | ⟨_, heq⟩
    · rw [heq] at hsc
      rcases List.mem_filter.mp hsc with ⟨hmem, hdec⟩
      have hlen : 60 ≤ sc.length := of_decide_eq_true hdec
      refine ⟨?_, ?_⟩
      · intro h0
        rw [h0] at hlen
        exact absurd hlen (by decide)
      · rcases List.mem_map.mp hmem with ⟨seg, _, rfl⟩
        exact stripOn_idem _ _
    · rw [heq] at hsc
      rcases List.mem_cons.mp hsc with rfl | h0
      · exact ⟨htne, stripOn_idem _ _⟩
      · simp at h0

/-- Witness for C10: a 34-character document with two short scenes; all
split parts fall below the 60-character minimum, so the fallback fires and
the single returned scene is non-empty and trimmed. -/
theorem scene_splitter_nonempty_trimmed_witness :
    scene_splitter ("INT. A - DAY\nhi\nEXT. B - NIGHT\nbye".toList) ≠ []
    ∧ scene_splitter ("INT. A - DAY\nhi\nEXT. B - NIGHT\nbye".toList)
      = [stripWS (normalizeNewlines ("INT. A - DAY\nhi\nEXT. B - NIGHT\nbye".toList))] :=
  ⟨(scene_splitter_nonempty_trimmed _ (by decide)).1,
   (scene_splitter_nonempty_trimmed _ (by decide)).2.1 (by decide)⟩

end SceneSense
